import Mathlib

/-!
B+ tree leaf page (`src/storage/page/b_plus_tree_leaf_page.cpp`)

A shallow embedding of the leaf page of the B+ tree index and proofs about its
query, mutation and rebalance operations.

Conventions of the embedding

* C++ `int` is `Int`.  Sizes are bounded by the number of slots of one storage
  page, so no `int` computation of the source comes near the 32-bit range.
* `array_` is the flexible array member at the end of the page.  It is a total
  map from slot index to pair: slots at index `size` and beyond hold whatever
  was left there.  `entries` is the occupied part, slots `0 .. size-1`.
* `assert` is active.  An operation that contains an assertion returns an
  `Outcome`: `completed s` with the final state, or `assertFailed s` with the
  state at the moment the assertion fired.
* `while` loops take an explicit `fuel` (the number of evaluations of the loop
  condition that are allowed) and return `none` when it runs out; the theorems
  show that `size + 1` always suffices.
* `this` and `recipient` are two different pages.
-/

namespace bustub

/-- Modelled from the spec: the page-type tag of the page header (the index page
header itself is not under `src/`). -/
inductive IndexPageType where
  | INVALID_INDEX_PAGE
  | LEAF_PAGE
  | INTERNAL_PAGE
  deriving DecidableEq, Repr

/-- Modelled from the spec: the reserved page id that denotes "none"; the
constant is declared outside `src/`. -/
def INVALID_PAGE_ID : Int := -1

/-- Modelled from the spec: the header fields of a leaf page (page-type tag, size,
maxSize, parentId, pageId, nextPageId) followed by the packed array of pairs.
The class declaration is not under `src/`. -/
structure BPlusTreeLeafPage (K V : Type) where
  page_type_ : IndexPageType
  size_ : Int
  max_size_ : Int
  parent_page_id_ : Int
  page_id_ : Int
  next_page_id_ : Int
  array_ : Int → K × V

/-- Result of an operation that contains `assert`. -/
inductive Outcome (σ : Type) where
  | completed (s : σ)
  | assertFailed (s : σ)

/-- Store `x` in slot `i` (`array_[i] = x`). -/
def setSlot {α : Type} (a : Int → α) (i : Int) (x : α) : Int → α :=
  fun j => if j = i then x else a j

/-- The call `memmove(array_ + dst, array_ + src, n * sizeof(MappingType))`: the
`n` slots starting at `src` are copied to the `n` slots starting at `dst`, as
if through a temporary buffer.  (`n` is never negative on a page whose size is
not negative.) -/
def memmove {α : Type} (a : Int → α) (dst src n : Int) : Int → α :=
  fun j => if dst ≤ j ∧ j < dst + n then a (src + (j - dst)) else a j

/-- The slots `a 0, ..., a (n-1)` of an array, in order. -/
def slots {α : Type} (a : Int → α) (n : Nat) : List α :=
  (List.range n).map (fun (i : Nat) => a (i : Int))

/-- The comparator is a parameter of every operation (its class is declared
outside `src/`).  It returns a negative number, zero or a positive number, and
the pages rely on it being a strict weak ordering: `cmp a b < 0` is a strict
partial order and "compares equal" is transitive. -/
structure StrictWeakComparator {K : Type} (cmp : K → K → Int) : Prop where
  antisymm : ∀ a b, cmp a b < 0 ↔ 0 < cmp b a
  trans : ∀ a b c, cmp a b < 0 → cmp b c < 0 → cmp a c < 0
  equiv_trans : ∀ a b c, cmp a b = 0 → cmp b c = 0 → cmp a c = 0

/-- A list of pairs is strictly ascending when each key is below the next one
under the comparator. -/
def Ascending {K V : Type} (cmp : K → K → Int) : List (K × V) → Prop
  | [] => True
  | [_] => True
  | a :: b :: l => cmp a.1 b.1 < 0 ∧ Ascending cmp (b :: l)

/-- Deciding `Ascending` by running down the list. -/
def Ascending.dec {K V : Type} (cmp : K → K → Int) :
    (l : List (K × V)) → Decidable (Ascending cmp l)
  | [] => isTrue trivial
  | [_] => isTrue trivial
  | a :: b :: l =>
    match Int.decLt (cmp a.1 b.1) 0, Ascending.dec cmp (b :: l) with
    | isTrue h1, isTrue h2 => isTrue ⟨h1, h2⟩
    | isFalse h1, _ => isFalse (fun h => h1 h.1)
    | _, isFalse h2 => isFalse (fun h => h2 h.2)

instance {K V : Type} (cmp : K → K → Int) (l : List (K × V)) : Decidable (Ascending cmp l) :=
  Ascending.dec cmp l

namespace BPlusTreeLeafPage

variable {K V : Type}

/-- Modelled from the spec: header accessor declared outside `src/`. -/
def GetSize (p : BPlusTreeLeafPage K V) : Int := p.size_

/-- Modelled from the spec: header accessor declared outside `src/`. -/
def SetSize (p : BPlusTreeLeafPage K V) (size : Int) : BPlusTreeLeafPage K V :=
  { p with size_ := size }

/-- Modelled from the spec: header accessor declared outside `src/`; adds
`amount` (which may be negative) to the size. -/
def IncreaseSize (p : BPlusTreeLeafPage K V) (amount : Int) : BPlusTreeLeafPage K V :=
  { p with size_ := p.size_ + amount }

/-- Modelled from the spec: header accessor declared outside `src/`. -/
def GetMaxSize (p : BPlusTreeLeafPage K V) : Int := p.max_size_

/-- Modelled from the spec: header accessor declared outside `src/`. -/
def SetMaxSize (p : BPlusTreeLeafPage K V) (max_size : Int) : BPlusTreeLeafPage K V :=
  { p with max_size_ := max_size }

/-- Modelled from the spec: header accessor declared outside `src/`. -/
def SetPageType (p : BPlusTreeLeafPage K V) (t : IndexPageType) : BPlusTreeLeafPage K V :=
  { p with page_type_ := t }

/-- Modelled from the spec: header accessor declared outside `src/`. -/
def IsLeafPage (p : BPlusTreeLeafPage K V) : Bool :=
  decide (p.page_type_ = IndexPageType.LEAF_PAGE)

/-- Modelled from the spec: header accessor declared outside `src/`. -/
def SetPageId (p : BPlusTreeLeafPage K V) (page_id : Int) : BPlusTreeLeafPage K V :=
  { p with page_id_ := page_id }

/-- Modelled from the spec: header accessor declared outside `src/`. -/
def SetParentPageId (p : BPlusTreeLeafPage K V) (parent_id : Int) : BPlusTreeLeafPage K V :=
  { p with parent_page_id_ := parent_id }

/-- Source function `GetNextPageId` (line 46). -/
def GetNextPageId (p : BPlusTreeLeafPage K V) : Int := p.next_page_id_

/-- Source function `SetNextPageId` (line 49). -/
def SetNextPageId (p : BPlusTreeLeafPage K V) (next_page_id : Int) : BPlusTreeLeafPage K V :=
  { p with next_page_id_ := next_page_id }

/-- Source function `Init` (lines 31-40), applied to the raw page memory `p`. -/
def Init (p : BPlusTreeLeafPage K V) (page_id parent_id max_size : Int) :
    BPlusTreeLeafPage K V :=
  let p1 := p.SetPageType IndexPageType.LEAF_PAGE
  let p2 := p1.SetPageId page_id
  let p3 := p2.SetParentPageId parent_id
  let p4 := p3.SetMaxSize max_size
  let p5 := p4.SetSize 0
  p5.SetNextPageId INVALID_PAGE_ID

/-- Source function `KeyAt` (lines 71-75). -/
def KeyAt (p : BPlusTreeLeafPage K V) (index : Int) : K := (p.array_ index).1

/-- Source function `GetItem` (lines 82-85). -/
def GetItem (p : BPlusTreeLeafPage K V) (index : Int) : K × V := p.array_ index

/-- The occupied slots `array_[0], ..., array_[size-1]`, in order. -/
def entries (p : BPlusTreeLeafPage K V) : List (K × V) :=
  slots p.array_ p.size_.toNat

/-- The body of the `for` loop of `KeyIndex` (lines 57-61): `n` iterations are
left and the loop variable is `i`. -/
def KeyIndex.loop (cmp : K → K → Int) (p : BPlusTreeLeafPage K V) (key : K) :
    Nat → Int → Int
  | 0, _ => p.GetSize
  | n + 1, i => if cmp key (p.array_ i).1 ≤ 0 then i else KeyIndex.loop cmp p key n (i + 1)

/-- Source function `KeyIndex` (lines 56-64). -/
def KeyIndex (cmp : K → K → Int) (p : BPlusTreeLeafPage K V) (key : K) : Int :=
  KeyIndex.loop cmp p key p.GetSize.toNat 0

/-- The `for` loop of `Insert` (lines 104-111) on the array `a`; the first
argument is the loop variable `i`, which runs from `size` down to `1`. -/
def Insert.loop (cmp : K → K → Int) (key : K) (value : V) :
    Nat → (Int → K × V) → (Int → K × V)
  | 0, a => a
  | i + 1, a =>
    if cmp key (a (((i + 1 : Nat) : Int) - 1)).1 > 0 then
      setSlot a ((i + 1 : Nat) : Int) (key, value)
    else
      Insert.loop cmp key value i
        (setSlot a ((i + 1 : Nat) : Int) (a (((i + 1 : Nat) : Int) - 1)))

/-- Source function `Insert` (lines 95-121): the page afterwards and the returned size. -/
def Insert (cmp : K → K → Int) (p : BPlusTreeLeafPage K V) (key : K) (value : V) :
    BPlusTreeLeafPage K V × Int :=
  if p.GetSize = 0 ∨ cmp key (p.KeyAt (p.GetSize - 1)) > 0 then
    let p1 := { p with array_ := setSlot p.array_ p.GetSize (key, value) }
    let p2 := p1.IncreaseSize 1
    (p2, p2.GetSize)
  else
    let a1 := Insert.loop cmp key value p.GetSize.toNat p.array_
    let a2 := if cmp key (a1 0).1 < 0 then setSlot a1 0 (key, value) else a1
    let p2 := ({ p with array_ := a2 }).IncreaseSize 1
    (p2, p2.GetSize)

/-- The `for` loop of `CopyNFrom` (lines 148-150): `n` iterations are left, the
loop variable is `i`, and `items i` is the `i`-th pair behind the pointer. -/
def CopyNFrom.loop (items : Int → K × V) (start : Int) :
    Nat → Int → (Int → K × V) → (Int → K × V)
  | 0, _, a => a
  | n + 1, i, a => CopyNFrom.loop items start n (i + 1) (setSlot a (start + i) (items i))

/-- Source function `CopyNFrom` (lines 145-152). -/
def CopyNFrom (p : BPlusTreeLeafPage K V) (items : Int → K × V) (size : Int) :
    Outcome (BPlusTreeLeafPage K V) :=
  if p.IsLeafPage = true ∧ p.GetSize + size ≤ p.GetMaxSize then
    let start := p.GetSize
    let p1 := { p with array_ := CopyNFrom.loop items start size.toNat 0 p.array_ }
    Outcome.completed (p1.IncreaseSize size)
  else
    Outcome.assertFailed p

/-- Source function `MoveHalfTo` (lines 130-139) on the pair `(this, recipient)`. -/
def MoveHalfTo (this recipient : BPlusTreeLeafPage K V) (mark : Int) :
    Outcome (BPlusTreeLeafPage K V × BPlusTreeLeafPage K V) :=
  if this.GetSize > 0 then
    let half : Int := if mark = 0 then (this.GetSize + 1).tdiv 2 else this.GetSize.tdiv 2
    match recipient.CopyNFrom (fun i => this.array_ (this.GetSize - half + i)) half with
    | Outcome.completed r1 => Outcome.completed (this.IncreaseSize (-1 * half), r1)
    | Outcome.assertFailed r1 => Outcome.assertFailed (this, r1)
  else
    Outcome.assertFailed (this, recipient)

/-- The `while` loop of `Lookup` (lines 170-180).  `none`: out of fuel;
`some none`: the loop ended without a match; `some (some v)`: match, the
out-parameter holds `v`. -/
def Lookup.loop (cmp : K → K → Int) (p : BPlusTreeLeafPage K V) (key : K) :
    Nat → Int → Int → Option (Option V)
  | 0, _, _ => none
  | fuel + 1, low, high =>
    if low ≤ high then
      let mid := low + (high - low).tdiv 2
      if cmp key (p.KeyAt mid) > 0 then Lookup.loop cmp p key fuel (mid + 1) high
      else if cmp key (p.KeyAt mid) < 0 then Lookup.loop cmp p key fuel low (mid - 1)
      else some (some (p.array_ mid).2)
    else some none

/-- Source function `Lookup` (lines 163-182).  `some (some v)` is `true` with `value = v`,
`some none` is `false`, `none` is out of fuel. -/
def Lookup (cmp : K → K → Int) (p : BPlusTreeLeafPage K V) (key : K) (fuel : Nat) :
    Option (Option V) :=
  if p.GetSize = 0 ∨ cmp key (p.KeyAt 0) < 0 ∨ cmp key (p.KeyAt (p.GetSize - 1)) > 0 then
    some none
  else
    Lookup.loop cmp p key fuel 0 (p.GetSize - 1)

/-- The `while` loop of `RemoveAndDeleteRecord` (lines 203-216): the page when
the loop is left, or `none` when the fuel runs out. -/
def RemoveAndDeleteRecord.loop (cmp : K → K → Int) (p : BPlusTreeLeafPage K V) (key : K) :
    Nat → Int → Int → Option (BPlusTreeLeafPage K V)
  | 0, _, _ => none
  | fuel + 1, low, high =>
    if low ≤ high then
      let mid := low + (high - low).tdiv 2
      if cmp key (p.KeyAt mid) > 0 then RemoveAndDeleteRecord.loop cmp p key fuel (mid + 1) high
      else if cmp key (p.KeyAt mid) < 0 then
        RemoveAndDeleteRecord.loop cmp p key fuel low (mid - 1)
      else
        let p1 := { p with array_ := memmove p.array_ mid (mid + 1) (p.GetSize - mid - 1) }
        some (p1.IncreaseSize (-1))
    else some p

/-- Source function `RemoveAndDeleteRecord` (lines 194-218): the page afterwards and the
returned size, or `none` when the fuel runs out. -/
def RemoveAndDeleteRecord (cmp : K → K → Int) (p : BPlusTreeLeafPage K V) (key : K)
    (fuel : Nat) : Option (BPlusTreeLeafPage K V × Int) :=
  if p.GetSize = 0 ∨ cmp key (p.KeyAt 0) < 0 ∨ cmp key (p.KeyAt (p.GetSize - 1)) > 0 then
    some (p, p.GetSize)
  else
    (RemoveAndDeleteRecord.loop cmp p key fuel 0 (p.GetSize - 1)).map
      (fun p1 => (p1, p1.GetSize))

/-- Source function `MoveAllTo` (lines 228-234) on the pair `(this, recipient)`; `middle_key`
is not used by the body. -/
def MoveAllTo (this recipient : BPlusTreeLeafPage K V) (_middle_key : K) :
    Outcome (BPlusTreeLeafPage K V × BPlusTreeLeafPage K V) :=
  match recipient.CopyNFrom (fun i => this.array_ i) this.GetSize with
  | Outcome.completed r1 =>
    let t1 := this.IncreaseSize (-1 * this.GetSize)
    Outcome.completed (t1, r1.SetNextPageId t1.GetNextPageId)
  | Outcome.assertFailed r1 => Outcome.assertFailed (this, r1)

/-- Source function `CopyLastFrom` (lines 255-259). -/
def CopyLastFrom (p : BPlusTreeLeafPage K V) (item : K × V) :
    Outcome (BPlusTreeLeafPage K V) :=
  if p.GetSize + 1 ≤ p.GetMaxSize then
    let p1 := { p with array_ := setSlot p.array_ p.GetSize item }
    Outcome.completed (p1.IncreaseSize 1)
  else
    Outcome.assertFailed p

/-- Source function `MoveFirstToEndOf` (lines 243-249) on the pair `(this, recipient)`. -/
def MoveFirstToEndOf (this recipient : BPlusTreeLeafPage K V) :
    Outcome (BPlusTreeLeafPage K V × BPlusTreeLeafPage K V) :=
  let pair := this.GetItem 0
  let t1 := { this with array_ := memmove this.array_ 0 1 this.GetSize }
  let t2 := t1.IncreaseSize (-1)
  match recipient.CopyLastFrom pair with
  | Outcome.completed r1 => Outcome.completed (t2, r1)
  | Outcome.assertFailed r1 => Outcome.assertFailed (t2, r1)

/-- Source function `CopyFirstFrom` (lines 276-282). -/
def CopyFirstFrom (p : BPlusTreeLeafPage K V) (item : K × V) :
    Outcome (BPlusTreeLeafPage K V) :=
  if p.GetSize + 1 < p.GetMaxSize then
    let p1 := { p with array_ := memmove p.array_ 1 0 p.GetSize }
    let p2 := p1.IncreaseSize 1
    Outcome.completed { p2 with array_ := setSlot p2.array_ 0 item }
  else
    Outcome.assertFailed p

/-- Source function `MoveLastToFrontOf` (lines 265-270) on the pair `(this, recipient)`. -/
def MoveLastToFrontOf (this recipient : BPlusTreeLeafPage K V) :
    Outcome (BPlusTreeLeafPage K V × BPlusTreeLeafPage K V) :=
  let t1 := this.IncreaseSize (-1)
  let pair := t1.array_ t1.GetSize
  match recipient.CopyFirstFrom pair with
  | Outcome.completed r1 => Outcome.completed (t1, r1)
  | Outcome.assertFailed r1 => Outcome.assertFailed (t1, r1)

/-- The entries of the page are strictly ascending under the comparator. -/
def StrictlyAscending (cmp : K → K → Int) (p : BPlusTreeLeafPage K V) : Prop :=
  Ascending cmp p.entries

instance (cmp : K → K → Int) (p : BPlusTreeLeafPage K V) : Decidable (StrictlyAscending cmp p) :=
  inferInstanceAs (Decidable (Ascending cmp p.entries))

/-- The search that the `while` loops of `Lookup` and `RemoveAndDeleteRecord`
share, returning the index `mid` at which the key matched (a device of the
proofs: both loops are shown to be this search followed by their own action). -/
def searchIndex (cmp : K → K → Int) (p : BPlusTreeLeafPage K V) (key : K) :
    Nat → Int → Int → Option (Option Int)
  | 0, _, _ => none
  | fuel + 1, low, high =>
    if low ≤ high then
      let mid := low + (high - low).tdiv 2
      if cmp key (p.KeyAt mid) > 0 then searchIndex cmp p key fuel (mid + 1) high
      else if cmp key (p.KeyAt mid) < 0 then searchIndex cmp p key fuel low (mid - 1)
      else some (some mid)
    else some none

/-- The page that `RemoveAndDeleteRecord` leaves when its search stops at `mid`
(lines 211-213): the slots behind `mid` are moved left by one and the size
drops by one. -/
def removeAt (p : BPlusTreeLeafPage K V) (mid : Int) : BPlusTreeLeafPage K V :=
  ({ p with array_ := memmove p.array_ mid (mid + 1) (p.GetSize - mid - 1) }).IncreaseSize (-1)

/-- A leaf page with the given capacity whose entries are `es`; every other
slot holds `dflt`.  Used to write down concrete pages. -/
def ofList (dflt : K × V) (max_size : Int) (es : List (K × V)) : BPlusTreeLeafPage K V :=
  { page_type_ := IndexPageType.LEAF_PAGE, size_ := es.length, max_size_ := max_size,
    parent_page_id_ := INVALID_PAGE_ID, page_id_ := 0, next_page_id_ := INVALID_PAGE_ID,
    array_ := fun i => if 0 ≤ i then es.getD i.toNat dflt else dflt }

end BPlusTreeLeafPage

/-- An instance of the comparator parameter for the concrete scenarios: integer
keys in their usual order, with results `-1`, `0`, `1`. -/
def intCmp (a b : Int) : Int := if a < b then -1 else if b < a then 1 else 0

/-- The reference ordered insert of the spec: the new pair goes in front of the
first entry whose key is not below `key`, the other entries keep their order. -/
def orderedInsert {K V : Type} (cmp : K → K → Int) (key : K) (value : V) :
    List (K × V) → List (K × V)
  | [] => [(key, value)]
  | e :: es =>
    if cmp key e.1 ≤ 0 then (key, value) :: e :: es
    else e :: orderedInsert cmp key value es

/-- The page `[(1,B),(3,C),(5,A)]` with capacity 4. -/
def page135 : BPlusTreeLeafPage Int Char :=
  BPlusTreeLeafPage.ofList (0, '_') 4 [(1, 'B'), (3, 'C'), (5, 'A')]

/-- The page `[(1,B),(5,A)]` with capacity 4. -/
def page15 : BPlusTreeLeafPage Int Char :=
  BPlusTreeLeafPage.ofList (0, '_') 4 [(1, 'B'), (5, 'A')]

/-- An empty page with capacity 4. -/
def emptyPage4 : BPlusTreeLeafPage Int Char :=
  BPlusTreeLeafPage.ofList (0, '_') 4 []

/-- The page of the insert scenario after `(5,A)` and `(1,B)` have been inserted
into the empty page, in that order. -/
def scenarioPage2 : BPlusTreeLeafPage Int Char :=
  (BPlusTreeLeafPage.Insert intCmp (BPlusTreeLeafPage.Insert intCmp emptyPage4 5 'A').1 1 'B').1

/-- The entries of `this` and of the recipient after an operation on two pages
that completed (`none` after a failed assertion). -/
def completedEntries {K V : Type} :
    Outcome (BPlusTreeLeafPage K V × BPlusTreeLeafPage K V) →
      Option (List (K × V) × List (K × V))
  | Outcome.completed s => some (s.1.entries, s.2.entries)
  | Outcome.assertFailed _ => none

/-- The page `[(1,a),(2,b),(3,c),(4,d)]` with capacity 4. -/
def page1234 : BPlusTreeLeafPage Int Char :=
  BPlusTreeLeafPage.ofList (0, '_') 4 [(1, 'a'), (2, 'b'), (3, 'c'), (4, 'd')]

/-- The left sibling `L = [(1,a),(2,b)]` of the merge scenario; its successor is
page 7. -/
def pageL : BPlusTreeLeafPage Int Char :=
  { BPlusTreeLeafPage.ofList (0, '_') 4 [(1, 'a'), (2, 'b')] with next_page_id_ := 7 }

/-- The right page `R = [(3,c),(4,d)]` of the merge scenario: page 7, without a
successor. -/
def pageR : BPlusTreeLeafPage Int Char :=
  { BPlusTreeLeafPage.ofList (0, '_') 4 [(3, 'c'), (4, 'd')] with page_id_ := 7 }

/-- The page `[(7,x)]` with capacity 4. -/
def page7 : BPlusTreeLeafPage Int Char :=
  BPlusTreeLeafPage.ofList (0, '_') 4 [(7, 'x')]

/-- The page `[(0,z)]` with capacity 4. -/
def page0 : BPlusTreeLeafPage Int Char :=
  BPlusTreeLeafPage.ofList (0, '_') 4 [(0, 'z')]

/-- A call of the mutation engine: `Insert(key, value)` or `RemoveByKey(key)`. -/
inductive Op (K V : Type) where
  | insert (key : K) (value : V)
  | remove (key : K)

/-- One call on the page `p`; `none` when the fuel runs out. -/
def applyOp {K V : Type} (cmp : K → K → Int) (fuel : Nat) (p : BPlusTreeLeafPage K V) :
    Op K V → Option (BPlusTreeLeafPage K V)
  | Op.insert key value => some (BPlusTreeLeafPage.Insert cmp p key value).1
  | Op.remove key => (BPlusTreeLeafPage.RemoveAndDeleteRecord cmp p key fuel).map Prod.fst

/-- The calls of a sequence, first to last, starting on the page `p`. -/
def applyOps {K V : Type} (cmp : K → K → Int) (fuel : Nat) :
    BPlusTreeLeafPage K V → List (Op K V) → Option (BPlusTreeLeafPage K V)
  | p, [] => some p
  | p, op :: rest => (applyOp cmp fuel p op).bind (fun p1 => applyOps cmp fuel p1 rest)

/-- What the claim asks of one call on the page `p`: an `Insert` uses a key that
is not present in `p`, and does not take the size above `maxSize`. -/
def OpAllowed {K V : Type} (cmp : K → K → Int) (p : BPlusTreeLeafPage K V) : Op K V → Prop
  | Op.insert key _ => (∀ e ∈ p.entries, cmp key e.1 ≠ 0) ∧ p.size_ < p.max_size_
  | Op.remove _ => True

instance {K V : Type} (cmp : K → K → Int) (p : BPlusTreeLeafPage K V) (op : Op K V) :
    Decidable (OpAllowed cmp p op) :=
  match op with
  | Op.insert key _ =>
    inferInstanceAs (Decidable ((∀ e ∈ p.entries, cmp key e.1 ≠ 0) ∧ p.size_ < p.max_size_))
  | Op.remove _ => isTrue trivial

/-- Every call of the sequence is allowed on the page it is made on. -/
def Admissible {K V : Type} (cmp : K → K → Int) (fuel : Nat) :
    BPlusTreeLeafPage K V → List (Op K V) → Prop
  | _, [] => True
  | p, op :: rest =>
    OpAllowed cmp p op ∧
      (applyOp cmp fuel p op).elim True (fun p1 => Admissible cmp fuel p1 rest)

/-- Deciding `o.elim True P`. -/
def decElim {α : Type} (o : Option α) (P : α → Prop) (d : ∀ a, Decidable (P a)) :
    Decidable (o.elim True P) :=
  match o with
  | none => isTrue trivial
  | some a => d a

/-- Deciding `Admissible` by running the calls. -/
def Admissible.dec {K V : Type} (cmp : K → K → Int) (fuel : Nat) :
    (p : BPlusTreeLeafPage K V) → (ops : List (Op K V)) → Decidable (Admissible cmp fuel p ops)
  | _, [] => isTrue trivial
  | p, op :: rest =>
    @instDecidableAnd _ _ inferInstance
      (decElim (applyOp cmp fuel p op) (fun p1 => Admissible cmp fuel p1 rest)
        (fun p1 => Admissible.dec cmp fuel p1 rest))

instance {K V : Type} (cmp : K → K → Int) (fuel : Nat) (p : BPlusTreeLeafPage K V)
    (ops : List (Op K V)) : Decidable (Admissible cmp fuel p ops) :=
  Admissible.dec cmp fuel p ops

/-- The finite map of the claim, read off the calls made so far (latest call
first): a lookup of `k` gives the locator of the last `Insert` of `k`, unless a
`RemoveByKey(k)` came after it; it gives "absent" when `k` was never inserted
or has been removed since. -/
def expectedLookup {K V : Type} (cmp : K → K → Int) (k : K) : List (Op K V) → Option V
  | [] => none
  | Op.insert key value :: earlier =>
    if cmp k key = 0 then some value else expectedLookup cmp k earlier
  | Op.remove key :: earlier =>
    if cmp k key = 0 then none else expectedLookup cmp k earlier

/-- The calls of the finite-map scenario: insert `(5,A)`, `(1,B)`, `(3,C)`, then
remove key 3. -/
def scenarioOps : List (Op Int Char) :=
  [Op.insert 5 'A', Op.insert 1 'B', Op.insert 3 'C', Op.remove 3]

/-- The state that an outcome carries: the final state, or the state at the
failed assertion. -/
def Outcome.state {σ : Type} : Outcome σ → σ
  | Outcome.completed s => s
  | Outcome.assertFailed s => s

/-- The slots that `memmove(array_ + dst, array_ + src, n * sizeof(MappingType))`
reads: `src, ..., src + n - 1`. -/
def memmoveReads (src n : Int) : List Int :=
  (List.range n.toNat).map (fun (i : Nat) => src + (i : Int))

/-- The slots that `memmove(array_ + dst, array_ + src, n * sizeof(MappingType))`
writes: `dst, ..., dst + n - 1`. -/
def memmoveWrites (dst n : Int) : List Int :=
  (List.range n.toNat).map (fun (i : Nat) => dst + (i : Int))

/-- The slots of `this` that `MoveFirstToEndOf` reads (lines 244-245): slot 0
through `GetItem(0)`, then the source slots of the `memmove`. -/
def BPlusTreeLeafPage.MoveFirstToEndOf.reads {K V : Type} (this : BPlusTreeLeafPage K V) :
    List Int :=
  0 :: memmoveReads 1 this.GetSize

/-- The slots of `this` that `MoveFirstToEndOf` writes (line 245): the
destination slots of the `memmove`. -/
def BPlusTreeLeafPage.MoveFirstToEndOf.writes {K V : Type} (this : BPlusTreeLeafPage K V) :
    List Int :=
  memmoveWrites 0 this.GetSize

/-- The `while` loop of `Lookup` (lines 170-180) with the comparator calls
counted: the test of line 172 is one call, the test of line 174, when it is
reached, one more.  The result is that of `Lookup.loop` paired with the number
of calls. -/
def BPlusTreeLeafPage.Lookup.loopCounted {K V : Type} (cmp : K → K → Int)
    (p : BPlusTreeLeafPage K V) (key : K) : Nat → Int → Int → Option (Option V × Nat)
  | 0, _, _ => none
  | fuel + 1, low, high =>
    if low ≤ high then
      let mid := low + (high - low).tdiv 2
      if cmp key (p.KeyAt mid) > 0 then
        (BPlusTreeLeafPage.Lookup.loopCounted cmp p key fuel (mid + 1) high).map
          (fun r => (r.1, r.2 + 1))
      else if cmp key (p.KeyAt mid) < 0 then
        (BPlusTreeLeafPage.Lookup.loopCounted cmp p key fuel low (mid - 1)).map
          (fun r => (r.1, r.2 + 2))
      else some (some (p.array_ mid).2, 2)
    else some (none, 0)

/-- Source function `Lookup` (lines 163-182) with the comparator calls counted.  The
condition of line 164 is evaluated left to right and stops at the first
disjunct that holds: no call when the size is 0, one call when the key is
below the first key, two calls otherwise. -/
def BPlusTreeLeafPage.LookupCounted {K V : Type} (cmp : K → K → Int)
    (p : BPlusTreeLeafPage K V) (key : K) (fuel : Nat) : Option (Option V × Nat) :=
  if p.GetSize = 0 then some (none, 0)
  else if cmp key (p.KeyAt 0) < 0 then some (none, 1)
  else if cmp key (p.KeyAt (p.GetSize - 1)) > 0 then some (none, 2)
  else
    (BPlusTreeLeafPage.Lookup.loopCounted cmp p key fuel 0 (p.GetSize - 1)).map
      (fun r => (r.1, r.2 + 2))

/-! ## Lemmas on arrays and the comparator -/

theorem slots_length {α : Type} (a : Int → α) (n : Nat) : (slots a n).length = n := by
  simp [slots]

theorem slots_getElem? {α : Type} (a : Int → α) (n i : Nat) :
    (slots a n)[i]? = if i < n then some (a i) else none := by
  unfold slots
  rw [List.getElem?_map]
  by_cases h : i < n
  · simp [h, List.getElem?_range h]
  · simp [h, List.getElem?_eq_none (by simpa using h : (List.range n).length ≤ i)]

theorem slots_congr {α : Type} (a b : Int → α) (n : Nat)
    (h : ∀ i : Nat, i < n → a i = b i) : slots a n = slots b n := by
  unfold slots
  apply List.map_congr_left
  intro i hi
  exact h i (List.mem_range.mp hi)

theorem slots_append {α : Type} (a : Int → α) (m n : Nat) :
    slots a (m + n) = slots a m ++ slots (fun i => a (m + i)) n := by
  unfold slots
  rw [List.range_add, List.map_append, List.map_map]
  congr 1

theorem slots_succ {α : Type} (a : Int → α) (n : Nat) :
    slots a (n + 1) = slots a n ++ [a n] := by
  rw [slots_append]; simp [slots, List.range_succ]

theorem slots_take {α : Type} (a : Int → α) (m n : Nat) :
    (slots a n).take m = slots a (min m n) := by
  apply List.ext_getElem?
  intro i
  rw [List.getElem?_take, slots_getElem?, slots_getElem?]
  by_cases h1 : i < m <;> by_cases h2 : i < n <;> simp [h1, h2]

theorem slots_drop {α : Type} (a : Int → α) (m n : Nat) :
    (slots a n).drop m = slots (fun i => a (m + i)) (n - m) := by
  apply List.ext_getElem?
  intro i
  rw [List.getElem?_drop, slots_getElem?, slots_getElem?]
  by_cases h : m + i < n
  · have : i < n - m := by omega
    simp [h, this]
  · have : ¬ i < n - m := by omega
    simp [h, this]

theorem mem_slots {α : Type} (a : Int → α) (n : Nat) (x : α) :
    x ∈ slots a n ↔ ∃ i : Nat, i < n ∧ a i = x := by
  simp [slots]

namespace StrictWeakComparator

variable {K : Type} {cmp : K → K → Int}

theorem cmp_self (hc : StrictWeakComparator cmp) (a : K) : cmp a a = 0 := by
  have h := hc.antisymm a a
  omega

theorem eq_symm (hc : StrictWeakComparator cmp) {a b : K} (h : cmp a b = 0) : cmp b a = 0 := by
  have h1 := hc.antisymm a b
  have h2 := hc.antisymm b a
  omega

theorem lt_of_eq_of_lt (hc : StrictWeakComparator cmp) {a b c : K}
    (h1 : cmp a b = 0) (h2 : cmp b c < 0) : cmp a c < 0 := by
  by_contra hn
  rcases Int.lt_or_lt_of_ne (fun h : cmp a c = 0 => by
    have := hc.equiv_trans b a c (hc.eq_symm h1) h
    omega) with h | h
  · exact hn h
  · have h3 : cmp c a < 0 := (hc.antisymm c a).mpr h
    have := hc.trans b c a h2 h3
    have := hc.eq_symm h1
    omega

theorem lt_of_lt_of_eq (hc : StrictWeakComparator cmp) {a b c : K}
    (h1 : cmp a b < 0) (h2 : cmp b c = 0) : cmp a c < 0 := by
  by_contra hn
  rcases Int.lt_or_lt_of_ne (fun h : cmp a c = 0 => by
    have := hc.equiv_trans a c b h (hc.eq_symm h2)
    omega) with h | h
  · exact hn h
  · have h3 : cmp c a < 0 := (hc.antisymm c a).mpr h
    have := hc.trans c a b h3 h1
    have := hc.eq_symm h2
    omega

theorem gt_iff (hc : StrictWeakComparator cmp) (a b : K) : cmp a b > 0 ↔ cmp b a < 0 :=
  (hc.antisymm b a).symm

end StrictWeakComparator

theorem intCmp_strictWeak : StrictWeakComparator intCmp where
  antisymm := by intro a b; unfold intCmp; split_ifs <;> omega
  trans := by intro a b c; unfold intCmp; split_ifs <;> omega
  equiv_trans := by
    intro a b c h1 h2
    have e1 : a = b := by
      unfold intCmp at h1
      split_ifs at h1 <;> omega
    have e2 : b = c := by
      unfold intCmp at h2
      split_ifs at h2 <;> omega
    subst e1 e2
    simp [intCmp]

theorem slots_getElem {α : Type} (a : Int → α) (n i : Nat) (h : i < (slots a n).length) :
    (slots a n)[i] = a i := by
  simp [slots]

theorem mid_bounds (low high : Int) (h : low ≤ high) :
    low ≤ low + (high - low).tdiv 2 ∧ low + (high - low).tdiv 2 ≤ high := by
  rw [Int.tdiv_eq_ediv (by omega) (by norm_num)]
  omega

theorem Ascending.iff_chain {K V : Type} (cmp : K → K → Int) :
    ∀ l : List (K × V), Ascending cmp l ↔ l.Chain' (fun a b => cmp a.1 b.1 < 0)
  | [] => by simp [Ascending]
  | [_] => by simp [Ascending]
  | a :: b :: l => by
    rw [Ascending, List.chain'_cons, Ascending.iff_chain cmp (b :: l)]

theorem Ascending.pairwise {K V : Type} {cmp : K → K → Int} (hc : StrictWeakComparator cmp)
    {l : List (K × V)} (h : Ascending cmp l) : l.Pairwise (fun a b => cmp a.1 b.1 < 0) := by
  haveI : IsTrans (K × V) (fun a b => cmp a.1 b.1 < 0) := ⟨fun a b c => hc.trans a.1 b.1 c.1⟩
  exact List.chain'_iff_pairwise.mp ((Ascending.iff_chain cmp l).mp h)

theorem Ascending.of_pairwise {K V : Type} {cmp : K → K → Int}
    {l : List (K × V)} (h : l.Pairwise (fun a b => cmp a.1 b.1 < 0)) : Ascending cmp l :=
  (Ascending.iff_chain cmp l).mpr (List.Pairwise.chain' h)

namespace BPlusTreeLeafPage

variable {K V : Type} {cmp : K → K → Int}

theorem entries_length (p : BPlusTreeLeafPage K V) : p.entries.length = p.size_.toNat :=
  slots_length _ _

theorem mem_entries (p : BPlusTreeLeafPage K V) (e : K × V) :
    e ∈ p.entries ↔ ∃ j : Int, 0 ≤ j ∧ j < p.size_ ∧ p.array_ j = e := by
  unfold entries
  rw [mem_slots]
  constructor
  · rintro ⟨i, hi, rfl⟩
    exact ⟨i, by omega, by omega, rfl⟩
  · rintro ⟨j, h0, h1, rfl⟩
    refine ⟨j.toNat, by omega, ?_⟩
    rw [Int.toNat_of_nonneg h0]

theorem ascending_index (hc : StrictWeakComparator cmp) {p : BPlusTreeLeafPage K V}
    (hs : StrictlyAscending cmp p) (i j : Int) (hi : 0 ≤ i) (hij : i < j) (hj : j < p.size_) :
    cmp (p.KeyAt i) (p.KeyAt j) < 0 := by
  have hp := List.pairwise_iff_getElem.mp (Ascending.pairwise hc hs)
  have hlen := p.entries_length
  have h := hp i.toNat j.toNat (by omega) (by omega) (by omega)
  unfold entries at h
  rw [slots_getElem, slots_getElem, Int.toNat_of_nonneg hi, Int.toNat_of_nonneg (by omega)] at h
  exact h

/-- On a strictly ascending page a key compares equal to at most one slot. -/
theorem match_unique (hc : StrictWeakComparator cmp) {p : BPlusTreeLeafPage K V}
    (hs : StrictlyAscending cmp p) (key : K) (i j : Int) (hi : 0 ≤ i) (hi2 : i < p.size_)
    (hj : 0 ≤ j) (hj2 : j < p.size_) (h1 : cmp key (p.KeyAt i) = 0)
    (h2 : cmp key (p.KeyAt j) = 0) : i = j := by
  by_contra hne
  rcases Int.lt_or_lt_of_ne hne with h | h
  · have := ascending_index hc hs i j hi h hj2
    have := hc.equiv_trans _ _ _ (hc.eq_symm h1) h2
    omega
  · have := ascending_index hc hs j i hj h hi2
    have := hc.equiv_trans _ _ _ (hc.eq_symm h2) h1
    omega

theorem searchIndex_absent (cmp : K → K → Int) (p : BPlusTreeLeafPage K V) (key : K) :
    ∀ (fuel : Nat) (low high : Int), (high + 1 - low).toNat < fuel →
      (∀ j, low ≤ j → j ≤ high → cmp key (p.KeyAt j) ≠ 0) →
      searchIndex cmp p key fuel low high = some none := by
  intro fuel
  induction fuel with
  | zero => intro low high h; omega
  | succ n ih =>
    intro low high hf hno
    unfold searchIndex
    by_cases hlh : low ≤ high
    · have hm := mid_bounds low high hlh
      have hne := hno _ hm.1 hm.2
      simp only [hlh, if_true]
      by_cases hg : cmp key (p.KeyAt (low + (high - low).tdiv 2)) > 0
      · simp only [hg, if_true]
        exact ih _ _ (by omega) (fun j h1 h2 => hno j (by omega) h2)
      · have hl : cmp key (p.KeyAt (low + (high - low).tdiv 2)) < 0 := by omega
        simp only [hg, hl, if_true, if_false]
        exact ih _ _ (by omega) (fun j h1 h2 => hno j h1 (by omega))
    · simp only [hlh, if_false]

theorem searchIndex_found (hc : StrictWeakComparator cmp) {p : BPlusTreeLeafPage K V}
    (hs : StrictlyAscending cmp p) (key : K) :
    ∀ (fuel : Nat) (low high m : Int), (high + 1 - low).toNat < fuel → 0 ≤ low → low ≤ m →
      m ≤ high → high < p.size_ → cmp key (p.KeyAt m) = 0 →
      searchIndex cmp p key fuel low high = some (some m) := by
  intro fuel
  induction fuel with
  | zero => intro low high m h; omega
  | succ n ih =>
    intro low high m hf h0 hlm hmh hhs hkey
    unfold searchIndex
    have hlh : low ≤ high := by omega
    have hm := mid_bounds low high hlh
    simp only [hlh, if_true]
    by_cases hg : cmp key (p.KeyAt (low + (high - low).tdiv 2)) > 0
    · simp only [hg, if_true]
      have hlt : low + (high - low).tdiv 2 < m := by
        by_contra hcon
        rcases lt_or_eq_of_le (not_lt.mp hcon) with h | h
        · have h3 := ascending_index hc hs m _ (by omega) h (by omega)
          have := hc.lt_of_eq_of_lt hkey h3
          omega
        · rw [h] at hkey; omega
      exact ih _ _ m (by omega) (by omega) (by omega) hmh hhs hkey
    · by_cases hl : cmp key (p.KeyAt (low + (high - low).tdiv 2)) < 0
      · simp only [hg, hl, if_true, if_false]
        have hlt : m < low + (high - low).tdiv 2 := by
          by_contra hcon
          rcases lt_or_eq_of_le (not_lt.mp hcon) with h | h
          · have h3 := ascending_index hc hs _ m (by omega) h (by omega)
            have h4 := hc.lt_of_lt_of_eq h3 (hc.eq_symm hkey)
            have := (hc.antisymm _ _).mp h4
            omega
          · rw [← h] at hkey; omega
        exact ih _ _ m (by omega) h0 hlm (by omega) (by omega) hkey
      · simp only [hg, hl, if_false]
        have : cmp key (p.KeyAt (low + (high - low).tdiv 2)) = 0 := by omega
        have := match_unique hc hs key _ m (by omega) (by omega) (by omega) (by omega) this hkey
        rw [this]

theorem Lookup_loop_eq_searchIndex (cmp : K → K → Int) (p : BPlusTreeLeafPage K V) (key : K) :
    ∀ (fuel : Nat) (low high : Int),
      Lookup.loop cmp p key fuel low high
        = (searchIndex cmp p key fuel low high).map (Option.map (fun m => (p.array_ m).2)) := by
  intro fuel
  induction fuel with
  | zero => intro low high; rfl
  | succ n ih =>
    intro low high
    unfold Lookup.loop searchIndex
    simp only [ih]
    split_ifs <;> rfl

end BPlusTreeLeafPage

namespace BPlusTreeLeafPage

variable {K V : Type} {cmp : K → K → Int}

/-- The two ways `Lookup` can end on a strictly ascending page. -/
theorem Lookup_cases (hc : StrictWeakComparator cmp) (p : BPlusTreeLeafPage K V) (key : K)
    (fuel : Nat) (hs : StrictlyAscending cmp p) (hfuel : p.size_.toNat < fuel) :
    (∃ m, 0 ≤ m ∧ m < p.size_ ∧ cmp key (p.KeyAt m) = 0 ∧
        Lookup cmp p key fuel = some (some (p.array_ m).2)) ∨
    ((∀ j, 0 ≤ j → j < p.size_ → cmp key (p.KeyAt j) ≠ 0) ∧
        Lookup cmp p key fuel = some none) := by
  by_cases hex : ∃ m, 0 ≤ m ∧ m < p.size_ ∧ cmp key (p.KeyAt m) = 0
  · obtain ⟨m, h0, h1, hk⟩ := hex
    left
    refine ⟨m, h0, h1, hk, ?_⟩
    have hfirst : ¬ cmp key (p.KeyAt 0) < 0 := by
      intro hlt
      rcases lt_or_eq_of_le h0 with h | h
      · have h3 := ascending_index hc hs 0 m (le_refl 0) h h1
        have h4 := hc.lt_of_lt_of_eq h3 (hc.eq_symm hk)
        have := (hc.antisymm _ _).mp h4
        omega
      · rw [← h] at hk; omega
    have hlast : ¬ cmp key (p.KeyAt (p.size_ - 1)) > 0 := by
      intro hgt
      rcases lt_or_eq_of_le (show m ≤ p.size_ - 1 by omega) with h | h
      · have h3 := ascending_index hc hs m (p.size_ - 1) h0 h (by omega)
        have := hc.lt_of_eq_of_lt hk h3
        omega
      · rw [h] at hk; omega
    have hsz : ¬ p.GetSize = 0 := by unfold GetSize; omega
    unfold Lookup
    rw [if_neg (by tauto), Lookup_loop_eq_searchIndex,
      searchIndex_found hc hs key fuel 0 (p.GetSize - 1) m (by unfold GetSize; omega)
        (le_refl 0) h0 (by unfold GetSize; omega) (by unfold GetSize; omega) hk]
    rfl
  · right
    have hno : ∀ j, 0 ≤ j → j < p.size_ → cmp key (p.KeyAt j) ≠ 0 := by
      intro j h0 h1 hk
      exact hex ⟨j, h0, h1, hk⟩
    refine ⟨hno, ?_⟩
    unfold Lookup
    split_ifs with hg
    · rfl
    · rw [Lookup_loop_eq_searchIndex,
        searchIndex_absent cmp p key fuel 0 (p.GetSize - 1) (by unfold GetSize; omega)
          (fun j h1 h2 => hno j h1 (by unfold GetSize at h2; omega))]
      rfl

/-- C1.  On a page whose entries are strictly ascending under the comparator (the
empty page included), `Lookup` with fuel above the size returns, and its result
`r` is "found with locator `v`" exactly when some entry has locator `v` and a key
that compares equal to `key` (when keys that compare equal are equal: exactly
when `(key, v)` is an entry), and "absent" otherwise.  In particular it is
"absent" when the size is 0, when `key` is below the first key and when `key` is
above the last key. -/
theorem Lookup_found_iff_entry (hc : StrictWeakComparator cmp) (p : BPlusTreeLeafPage K V)
    (key : K) (fuel : Nat) (hs : StrictlyAscending cmp p) (hfuel : p.size_.toNat < fuel) :
    ∃ r, Lookup cmp p key fuel = some r ∧
      (∀ v, r = some v ↔ ∃ e ∈ p.entries, cmp key e.1 = 0 ∧ e.2 = v) ∧
      (r = none ↔ ∀ e ∈ p.entries, cmp key e.1 ≠ 0) ∧
      ((∀ a b, cmp a b = 0 → a = b) → ∀ v, r = some v ↔ (key, v) ∈ p.entries) ∧
      (p.size_ = 0 → r = none) ∧
      (cmp key (p.KeyAt 0) < 0 → r = none) ∧
      (cmp key (p.KeyAt (p.size_ - 1)) > 0 → r = none) := by
  have hguard : ∀ r, Lookup cmp p key fuel = some r →
      (p.size_ = 0 → r = none) ∧ (cmp key (p.KeyAt 0) < 0 → r = none) ∧
      (cmp key (p.KeyAt (p.size_ - 1)) > 0 → r = none) := by
    intro r hr
    unfold Lookup GetSize at hr
    refine ⟨fun h => ?_, fun h => ?_, fun h => ?_⟩ <;>
    · rw [if_pos (by tauto)] at hr
      exact (Option.some.inj hr).symm
  have hiff : ∀ r : Option V, (∀ v, r = some v ↔ ∃ e ∈ p.entries, cmp key e.1 = 0 ∧ e.2 = v) →
      ((r = none ↔ ∀ e ∈ p.entries, cmp key e.1 ≠ 0) ∧
       ((∀ a b, cmp a b = 0 → a = b) → ∀ v, r = some v ↔ (key, v) ∈ p.entries)) := by
    intro r h
    constructor
    · constructor
      · intro hn e he hk
        have := (h e.2).mpr ⟨e, he, hk, rfl⟩
        rw [hn] at this
        exact Option.noConfusion this
      · intro hno
        cases r with
        | none => rfl
        | some v =>
          obtain ⟨e, he, hk, _⟩ := (h v).mp rfl
          exact absurd hk (hno e he)
    · intro heq v
      rw [h v]
      constructor
      · rintro ⟨e, he, hk, rfl⟩
        have : key = e.1 := heq _ _ hk
        rw [this]
        exact he
      · intro he
        exact ⟨(key, v), he, hc.cmp_self key, rfl⟩
  rcases Lookup_cases hc p key fuel hs hfuel with ⟨m, h0, h1, hk, hres⟩ | ⟨hno, hres⟩
  · have hmain : ∀ v, some (p.array_ m).2 = some v ↔
        ∃ e ∈ p.entries, cmp key e.1 = 0 ∧ e.2 = v := by
      intro v
      constructor
      · intro hv
        exact ⟨p.array_ m, (mem_entries p _).mpr ⟨m, h0, h1, rfl⟩, hk, Option.some.inj hv⟩
      · rintro ⟨e, he, hke, rfl⟩
        obtain ⟨j, hj0, hj1, rfl⟩ := (mem_entries p _).mp he
        have := match_unique hc hs key m j h0 h1 hj0 hj1 hk hke
        rw [this]
    exact ⟨_, hres, hmain, (hiff _ hmain).1, (hiff _ hmain).2, hguard _ hres⟩
  · have hmain : ∀ v, (none : Option V) = some v ↔
        ∃ e ∈ p.entries, cmp key e.1 = 0 ∧ e.2 = v := by
      intro v
      constructor
      · intro hv
        exact Option.noConfusion hv
      · rintro ⟨e, he, hke, _⟩
        obtain ⟨j, hj0, hj1, rfl⟩ := (mem_entries p _).mp he
        exact absurd hke (hno j hj0 hj1)
    exact ⟨_, hres, hmain, (hiff _ hmain).1, (hiff _ hmain).2, hguard _ hres⟩

end BPlusTreeLeafPage

namespace BPlusTreeLeafPage

variable {K V : Type} {cmp : K → K → Int}

theorem KeyIndex_loop_spec (cmp : K → K → Int) (p : BPlusTreeLeafPage K V) (key : K) :
    ∀ (n : Nat) (i : Int), i + n = p.size_ →
      i ≤ KeyIndex.loop cmp p key n i ∧ KeyIndex.loop cmp p key n i ≤ p.size_ ∧
      (∀ j, i ≤ j → j < KeyIndex.loop cmp p key n i → cmp key (p.KeyAt j) > 0) ∧
      (KeyIndex.loop cmp p key n i < p.size_ →
        cmp key (p.KeyAt (KeyIndex.loop cmp p key n i)) ≤ 0) := by
  intro n
  induction n with
  | zero =>
    intro i hi
    simp only [KeyIndex.loop, GetSize]
    refine ⟨by omega, le_refl _, fun j h1 h2 => by omega, fun h => by omega⟩
  | succ n ih =>
    intro i hi
    unfold KeyIndex.loop
    by_cases hcmp : cmp key (p.array_ i).1 ≤ 0
    · simp only [hcmp, if_true]
      exact ⟨le_refl _, by omega, fun j h1 h2 => by omega, fun _ => hcmp⟩
    · simp only [hcmp, if_false]
      obtain ⟨h1, h2, h3, h4⟩ := ih (i + 1) (by push_cast at hi; omega)
      refine ⟨by omega, h2, fun j hj1 hj2 => ?_, h4⟩
      rcases eq_or_lt_of_le hj1 with h | h
      · rw [← h]; unfold KeyAt; omega
      · exact h3 j (by omega) hj2

/-- The result of `KeyIndex` is the lower bound of `key`: every slot before it has a key
below `key`, and the slot at it (when there is one) has not. -/
theorem KeyIndex_spec (cmp : K → K → Int) (p : BPlusTreeLeafPage K V) (key : K)
    (h0 : 0 ≤ p.size_) :
    0 ≤ KeyIndex cmp p key ∧ KeyIndex cmp p key ≤ p.size_ ∧
    (∀ j, 0 ≤ j → j < KeyIndex cmp p key → cmp key (p.KeyAt j) > 0) ∧
    (KeyIndex cmp p key < p.size_ → cmp key (p.KeyAt (KeyIndex cmp p key)) ≤ 0) := by
  unfold KeyIndex GetSize
  exact KeyIndex_loop_spec cmp p key p.size_.toNat 0 (by omega)

theorem Insert_loop_eq (cmp : K → K → Int) (key : K) (value : V) :
    ∀ (i : Nat) (a : Int → K × V) (j : Nat), j ≤ i →
      (∀ t : Nat, j ≤ t → t < i → ¬ cmp key (a t).1 > 0) →
      (j = 0 ∨ cmp key (a ((j : Int) - 1)).1 > 0) →
      Insert.loop cmp key value i a
        = fun t : Int => if (j : Int) < t ∧ t ≤ i then a (t - 1)
            else if t = j ∧ 0 < j then (key, value) else a t := by
  intro i
  induction i with
  | zero =>
    intro a j hj _ _
    funext t
    have : ¬ ((j : Int) < t ∧ t ≤ (0 : Nat)) := by omega
    have h2 : ¬ (t = (j : Int) ∧ 0 < j) := by omega
    simp only [Insert.loop, this, h2, if_false]
  | succ i ih =>
    intro a j hj hle hgt
    unfold Insert.loop
    have hcast : (((i + 1 : Nat) : Int) - 1) = (i : Int) := by push_cast; omega
    rw [hcast]
    rcases Nat.eq_or_lt_of_le hj with hji | hji
    · have hpos : cmp key (a (i : Int)).1 > 0 := by
        rcases hgt with h | h
        · omega
        · rw [hji, hcast] at h; exact h
      simp only [hpos, if_true]
      funext t
      unfold setSlot
      split_ifs <;> first | rfl | (exfalso; omega)
    · have hnot : ¬ cmp key (a (i : Int)).1 > 0 := hle i (by omega) (by omega)
      simp only [hnot, if_false]
      rw [ih (setSlot a ((i + 1 : Nat) : Int) (a i)) j (by omega)
        (fun t h1 h2 => by
          have : ((t : Int) = ((i + 1 : Nat) : Int)) = False := by
            apply eq_false; push_cast; omega
          simp only [setSlot, this, if_false]
          exact hle t h1 (by omega))
        (by
          rcases hgt with h | h
          · exact Or.inl h
          · right
            have : (((j : Int) - 1) = ((i + 1 : Nat) : Int)) = False := by
              apply eq_false; push_cast; omega
            simp only [setSlot, this, if_false]
            exact h)]
      funext t
      unfold setSlot
      split_ifs <;> first | rfl | (exfalso; omega) | (congr 1; omega)

end BPlusTreeLeafPage

theorem orderedInsert_eq_take_drop {K V : Type} (cmp : K → K → Int) (key : K) (value : V) :
    ∀ (es : List (K × V)) (j : Nat), j ≤ es.length →
      (∀ (t : Nat) (h : t < es.length), t < j → cmp key es[t].1 > 0) →
      (∀ (h : j < es.length), cmp key es[j].1 ≤ 0) →
      orderedInsert cmp key value es = es.take j ++ (key, value) :: es.drop j := by
  intro es
  induction es with
  | nil =>
    intro j hj _ _
    have : j = 0 := by simpa using hj
    subst this
    rfl
  | cons e es ih =>
    intro j hj hbelow hat
    cases j with
    | zero =>
      have h := hat (by simp)
      simp only [List.getElem_cons_zero] at h
      simp [orderedInsert, h]
    | succ j =>
      have h := hbelow 0 (by simp) (by omega)
      simp only [List.getElem_cons_zero] at h
      have hn : ¬ cmp key e.1 ≤ 0 := by omega
      simp only [orderedInsert, hn, if_false, List.take_succ_cons, List.drop_succ_cons,
        List.cons_append]
      rw [ih j (by simpa using hj)
        (fun t ht htj => by
          have := hbelow (t + 1) (by simpa using ht) (by omega)
          simpa using this)
        (fun ht => by
          have := hat (by simpa using ht)
          simpa using this)]

namespace BPlusTreeLeafPage

variable {K V : Type} {cmp : K → K → Int}

/-- On a strictly ascending page that holds no key comparing equal to `key`,
every slot from `KeyIndex` on has a key above `key`. -/
theorem KeyIndex_above (hc : StrictWeakComparator cmp) (p : BPlusTreeLeafPage K V) (key : K)
    (hs : StrictlyAscending cmp p) (h0 : 0 ≤ p.size_)
    (hnew : ∀ e ∈ p.entries, cmp key e.1 ≠ 0) :
    ∀ j, KeyIndex cmp p key ≤ j → j < p.size_ → cmp key (p.KeyAt j) < 0 := by
  obtain ⟨hi0, _, _, hat⟩ := KeyIndex_spec cmp p key h0
  intro j h1 h2
  have hne : cmp key (p.KeyAt (KeyIndex cmp p key)) ≠ 0 :=
    hnew _ ((mem_entries p _).mpr ⟨_, hi0, by omega, rfl⟩)
  have hlt : cmp key (p.KeyAt (KeyIndex cmp p key)) < 0 := by
    have := hat (by omega)
    omega
  rcases eq_or_lt_of_le h1 with h | h
  · rw [← h]; exact hlt
  · exact hc.trans _ _ _ hlt (ascending_index hc hs _ j hi0 h h2)

/-- The array and the size after `Insert` of a key that is not in the page. -/
theorem Insert_array (hc : StrictWeakComparator cmp) (p : BPlusTreeLeafPage K V) (key : K)
    (value : V) (hs : StrictlyAscending cmp p) (h0 : 0 ≤ p.size_)
    (hnew : ∀ e ∈ p.entries, cmp key e.1 ≠ 0) :
    (Insert cmp p key value).1.size_ = p.size_ + 1 ∧
    (Insert cmp p key value).2 = p.size_ + 1 ∧
    ∀ t : Int, 0 ≤ t → t ≤ p.size_ →
      (Insert cmp p key value).1.array_ t
        = if t < KeyIndex cmp p key then p.array_ t
          else if t = KeyIndex cmp p key then (key, value) else p.array_ (t - 1) := by
  obtain ⟨hi0, hi1, hbelow, _⟩ := KeyIndex_spec cmp p key h0
  have habove := KeyIndex_above hc p key hs h0 hnew
  by_cases hg : p.GetSize = 0 ∨ cmp key (p.KeyAt (p.GetSize - 1)) > 0
  · have hi : KeyIndex cmp p key = p.size_ := by
      by_contra hne
      rcases hg with h | h
      · unfold GetSize at h; omega
      · have := habove (p.size_ - 1) (by omega) (by omega)
        unfold GetSize at h
        omega
    unfold Insert
    rw [if_pos hg]
    refine ⟨rfl, rfl, fun t ht0 ht1 => ?_⟩
    simp only [IncreaseSize, setSlot, GetSize, hi]
    split_ifs <;> first | rfl | (exfalso; omega)
  · have hsz : p.size_ ≠ 0 := fun h => hg (Or.inl h)
    have hlast : ¬ cmp key (p.KeyAt (p.size_ - 1)) > 0 := fun h => hg (Or.inr h)
    have hi : KeyIndex cmp p key < p.size_ := by
      by_contra hne
      have := hbelow (p.size_ - 1) (by omega) (by omega)
      exact hlast this
    have hloop := Insert_loop_eq cmp key value p.size_.toNat p.array_
      (KeyIndex cmp p key).toNat (by omega)
      (fun t h1 h2 => by
        have := habove t (by omega) (by omega)
        unfold KeyAt at this
        omega)
      (by
        by_cases hz : KeyIndex cmp p key = 0
        · left; omega
        · right
          have := hbelow (KeyIndex cmp p key - 1) (by omega) (by omega)
          rw [Int.toNat_of_nonneg hi0]
          exact this)
    have hzero : (Insert.loop cmp key value p.size_.toNat p.array_ 0) = p.array_ 0 := by
      rw [hloop]
      simp only
      rw [if_neg (by omega), if_neg (by omega)]
    have hcond : cmp key (p.array_ 0).1 < 0 ↔ KeyIndex cmp p key = 0 := by
      constructor
      · intro h
        by_contra hz
        have := hbelow 0 (le_refl 0) (by omega)
        unfold KeyAt at this
        omega
      · intro h
        have := habove 0 (by omega) (by omega)
        exact this
    unfold Insert
    rw [if_neg hg]
    refine ⟨rfl, rfl, fun t ht0 ht1 => ?_⟩
    simp only [IncreaseSize, GetSize, hzero]
    by_cases hz : KeyIndex cmp p key = 0
    · rw [if_pos (hcond.mpr hz), hloop]
      simp only [setSlot]
      split_ifs <;> first | rfl | (exfalso; omega)
    · rw [if_neg (fun h => hz (hcond.mp h)), hloop]
      simp only
      split_ifs <;> first | rfl | (exfalso; omega)

end BPlusTreeLeafPage

/-- The entries after a pair has been put in at slot `j` and the slots behind it
have moved right by one. -/
theorem slots_insert {α : Type} (a b : Int → α) (n j : Nat) (x : α) (hj : j ≤ n)
    (hlow : ∀ t : Nat, t < j → b t = a t) (hat : b j = x)
    (hhigh : ∀ t : Nat, j < t → t ≤ n → b t = a ((t : Int) - 1)) :
    slots b (n + 1) = (slots a n).take j ++ x :: (slots a n).drop j := by
  apply List.ext_getElem?
  intro t
  have hlen : ((slots a n).take j).length = j := by
    rw [List.length_take, slots_length]; omega
  rw [slots_getElem?]
  rcases Nat.lt_trichotomy t j with h | h | h
  · rw [List.getElem?_append_left (by omega), List.getElem?_take_of_lt h, slots_getElem?,
      if_pos (by omega), if_pos (by omega), hlow t h]
  · subst h
    rw [List.getElem?_append_right (by omega), hlen, Nat.sub_self, if_pos (by omega), hat]
    simp
  · rw [List.getElem?_append_right (by omega), hlen]
    obtain ⟨d, hd⟩ : ∃ d, t - j = d + 1 := ⟨t - j - 1, by omega⟩
    rw [hd, List.getElem?_cons_succ, List.getElem?_drop, slots_getElem?]
    by_cases htn : t < n + 1
    · rw [if_pos htn, if_pos (by omega), hhigh t h (by omega)]
      congr 2
      omega
    · rw [if_neg htn, if_neg (by omega)]

/-- Putting a pair between the entries below it and the entries above it keeps
the list strictly ascending. -/
theorem Ascending.insert {K V : Type} {cmp : K → K → Int} (hc : StrictWeakComparator cmp)
    (es : List (K × V)) (j : Nat) (x : K × V) (hs : Ascending cmp es)
    (hlow : ∀ e ∈ es.take j, cmp e.1 x.1 < 0) (hhigh : ∀ e ∈ es.drop j, cmp x.1 e.1 < 0) :
    Ascending cmp (es.take j ++ x :: es.drop j) := by
  have hp := Ascending.pairwise hc hs
  rw [← List.take_append_drop j es, List.pairwise_append] at hp
  obtain ⟨h1, h2, h3⟩ := hp
  apply Ascending.of_pairwise
  rw [List.pairwise_append]
  refine ⟨h1, List.pairwise_cons.mpr ⟨hhigh, h2⟩, ?_⟩
  intro a ha b hb
  rcases List.mem_cons.mp hb with h | h
  · rw [h]; exact hlow a ha
  · exact h3 a ha b h

namespace BPlusTreeLeafPage

variable {K V : Type} {cmp : K → K → Int}

/-- The entries after `Insert` of a key that is not in the page: the pair sits
at the index that `KeyIndex` gave before the call. -/
theorem Insert_entries (hc : StrictWeakComparator cmp) (p : BPlusTreeLeafPage K V)
    (key : K) (value : V) (hs : StrictlyAscending cmp p) (h0 : 0 ≤ p.size_)
    (hnew : ∀ e ∈ p.entries, cmp key e.1 ≠ 0) :
    (Insert cmp p key value).1.entries
      = p.entries.take (KeyIndex cmp p key).toNat
          ++ (key, value) :: p.entries.drop (KeyIndex cmp p key).toNat := by
  obtain ⟨hi0, hi1, _, _⟩ := KeyIndex_spec cmp p key h0
  obtain ⟨hsize, _, harr⟩ := Insert_array hc p key value hs h0 hnew
  unfold entries
  rw [hsize, show (p.size_ + 1).toNat = p.size_.toNat + 1 by omega]
  apply slots_insert _ _ _ _ _ (by omega)
  · intro t ht
    rw [harr t (by omega) (by omega), if_pos (by omega)]
  · rw [harr _ (by omega) (by omega), if_neg (by omega), if_pos (by omega)]
  · intro t ht1 ht2
    rw [harr t (by omega) (by omega), if_neg (by omega), if_neg (by omega)]

/-- An `Insert` of a key that is not in the page keeps the entries strictly
ascending. -/
theorem Insert_ascending (hc : StrictWeakComparator cmp) (p : BPlusTreeLeafPage K V)
    (key : K) (value : V) (hs : StrictlyAscending cmp p) (h0 : 0 ≤ p.size_)
    (hnew : ∀ e ∈ p.entries, cmp key e.1 ≠ 0) :
    StrictlyAscending cmp (Insert cmp p key value).1 := by
  obtain ⟨hi0, hi1, hbelow, _⟩ := KeyIndex_spec cmp p key h0
  have habove := KeyIndex_above hc p key hs h0 hnew
  have hlowmem : ∀ e ∈ p.entries.take (KeyIndex cmp p key).toNat, cmp e.1 key < 0 := by
    intro e he
    unfold entries at he
    rw [slots_take, mem_slots] at he
    obtain ⟨t, ht, rfl⟩ := he
    have := hbelow t (by omega) (by omega)
    exact (hc.gt_iff _ _).mp this
  have hhighmem : ∀ e ∈ p.entries.drop (KeyIndex cmp p key).toNat, cmp key e.1 < 0 := by
    intro e he
    unfold entries at he
    rw [slots_drop, mem_slots] at he
    obtain ⟨t, ht, rfl⟩ := he
    exact habove _ (by omega) (by omega)
  unfold StrictlyAscending
  rw [Insert_entries hc p key value hs h0 hnew]
  exact Ascending.insert hc _ _ _ hs hlowmem hhighmem

/-- C2.  On a page (size not negative) with strictly ascending entries and
`size < maxSize`, for a key that compares unequal to every key of the page,
`Insert` is the reference ordered insert: the entries afterwards are the old
entries, in their old order, with `(key, value)` at the index that `KeyIndex`
gave before the call; they are strictly ascending; the size is the old size
plus one, still at most `maxSize`, and it is the returned value. -/
theorem Insert_eq_orderedInsert (hc : StrictWeakComparator cmp) (p : BPlusTreeLeafPage K V)
    (key : K) (value : V) (hs : StrictlyAscending cmp p) (h0 : 0 ≤ p.size_)
    (hcap : p.size_ < p.max_size_) (hnew : ∀ e ∈ p.entries, cmp key e.1 ≠ 0) :
    (Insert cmp p key value).1.entries = orderedInsert cmp key value p.entries ∧
    0 ≤ KeyIndex cmp p key ∧ KeyIndex cmp p key ≤ p.size_ ∧
    (Insert cmp p key value).1.entries
      = p.entries.take (KeyIndex cmp p key).toNat
          ++ (key, value) :: p.entries.drop (KeyIndex cmp p key).toNat ∧
    StrictlyAscending cmp (Insert cmp p key value).1 ∧
    (Insert cmp p key value).1.size_ = p.size_ + 1 ∧
    (Insert cmp p key value).1.size_ ≤ (Insert cmp p key value).1.max_size_ ∧
    (Insert cmp p key value).2 = p.size_ + 1 := by
  obtain ⟨hi0, hi1, hbelow, hat⟩ := KeyIndex_spec cmp p key h0
  obtain ⟨hsize, hret, _⟩ := Insert_array hc p key value hs h0 hnew
  have hmax : (Insert cmp p key value).1.max_size_ = p.max_size_ := by
    unfold Insert
    split_ifs <;> rfl
  have hentries := Insert_entries hc p key value hs h0 hnew
  refine ⟨?_, hi0, hi1, hentries, Insert_ascending hc p key value hs h0 hnew, hsize,
    by rw [hsize, hmax]; omega, hret⟩
  rw [hentries]
  symm
  apply orderedInsert_eq_take_drop
  · rw [entries_length]; omega
  · intro t ht htj
    unfold entries
    rw [slots_getElem]
    exact hbelow t (by omega) (by omega)
  · intro ht
    unfold entries
    rw [slots_getElem, Int.toNat_of_nonneg hi0]
    rw [entries_length] at ht
    exact hat (by omega)

end BPlusTreeLeafPage

/-- The hypotheses and the conclusion of C2 in the scenario of the spec: after
`(5,A)` and `(1,B)` have been inserted into an empty leaf with capacity 4,
inserting `(3,C)` gives `[(1,B),(3,C),(5,A)]` with size 3. -/
theorem Insert_eq_orderedInsert_witness :
    BPlusTreeLeafPage.StrictlyAscending intCmp scenarioPage2 ∧
    (0 : Int) ≤ scenarioPage2.size_ ∧ scenarioPage2.size_ < scenarioPage2.max_size_ ∧
    (∀ e ∈ scenarioPage2.entries, intCmp 3 e.1 ≠ 0) ∧
    (BPlusTreeLeafPage.Insert intCmp scenarioPage2 3 'C').1.entries
      = [(1, 'B'), (3, 'C'), (5, 'A')] ∧
    (BPlusTreeLeafPage.Insert intCmp scenarioPage2 3 'C').1.size_ = 3 ∧
    (BPlusTreeLeafPage.Insert intCmp scenarioPage2 3 'C').2 = 3 :=
  have h := BPlusTreeLeafPage.Insert_eq_orderedInsert intCmp_strictWeak scenarioPage2 3 'C'
    (by decide) (by decide) (by decide) (by decide)
  ⟨by decide, by decide, by decide, by decide, h.1.trans (by decide),
    h.2.2.2.2.2.1.trans (by decide), h.2.2.2.2.2.2.2.trans (by decide)⟩

/-- The hypotheses and the conclusion of C1 on the page `[(1,B),(3,C),(5,A)]`,
key 3 and fuel 4; the lookup itself evaluates to "found, locator C", and the
lookup of key 2 to "absent". -/
theorem Lookup_found_iff_entry_witness :
    BPlusTreeLeafPage.StrictlyAscending intCmp page135 ∧ page135.size_.toNat < 4 ∧
    BPlusTreeLeafPage.Lookup intCmp page135 3 4 = some (some 'C') ∧
    BPlusTreeLeafPage.Lookup intCmp page135 2 4 = some none ∧
    ∃ r, BPlusTreeLeafPage.Lookup intCmp page135 3 4 = some r ∧
      (∀ v, r = some v ↔ ∃ e ∈ page135.entries, intCmp 3 e.1 = 0 ∧ e.2 = v) ∧
      (r = none ↔ ∀ e ∈ page135.entries, intCmp 3 e.1 ≠ 0) ∧
      ((∀ a b, intCmp a b = 0 → a = b) → ∀ v, r = some v ↔ (3, v) ∈ page135.entries) ∧
      (page135.size_ = 0 → r = none) ∧
      (intCmp 3 (page135.KeyAt 0) < 0 → r = none) ∧
      (intCmp 3 (page135.KeyAt (page135.size_ - 1)) > 0 → r = none) :=
  ⟨by decide, by decide, by decide, by decide,
    BPlusTreeLeafPage.Lookup_found_iff_entry intCmp_strictWeak page135 3 4
      (by decide) (by decide)⟩

/-- The entries after the slots behind `m` have moved left by one. -/
theorem slots_erase {α : Type} (a b : Int → α) (n m : Nat) (hm : m < n)
    (hlow : ∀ t : Nat, t < m → b t = a t)
    (hhigh : ∀ t : Nat, m ≤ t → t + 1 < n → b t = a ((t : Int) + 1)) :
    slots b (n - 1) = (slots a n).eraseIdx m := by
  apply List.ext_getElem?
  intro t
  rw [List.getElem?_eraseIdx, slots_getElem?]
  by_cases htm : t < m
  · rw [if_pos htm, slots_getElem?, if_pos (by omega), if_pos (by omega), hlow t htm]
  · rw [if_neg htm, slots_getElem?]
    by_cases htn : t + 1 < n
    · rw [if_pos (by omega), if_pos htn, hhigh t (by omega) htn]
      congr 1
    · rw [if_neg (by omega), if_neg htn]

namespace BPlusTreeLeafPage

variable {K V : Type} {cmp : K → K → Int}

theorem RemoveAndDeleteRecord_loop_eq_searchIndex (cmp : K → K → Int)
    (p : BPlusTreeLeafPage K V) (key : K) :
    ∀ (fuel : Nat) (low high : Int),
      RemoveAndDeleteRecord.loop cmp p key fuel low high
        = (searchIndex cmp p key fuel low high).map
            (fun r => match r with
              | none => p
              | some mid => p.removeAt mid) := by
  intro fuel
  induction fuel with
  | zero => intro low high; rfl
  | succ n ih =>
    intro low high
    unfold RemoveAndDeleteRecord.loop searchIndex
    simp only [ih]
    split_ifs <;> rfl

theorem removeAt_array (p : BPlusTreeLeafPage K V) (mid j : Int) :
    (p.removeAt mid).array_ j
      = if mid ≤ j ∧ j < p.size_ - 1 then p.array_ (j + 1) else p.array_ j := by
  simp only [removeAt, IncreaseSize, memmove, GetSize]
  split_ifs <;> first | rfl | (exfalso; omega) | (congr 1; omega)

theorem removeAt_entries (p : BPlusTreeLeafPage K V) (mid : Int) (h0 : 0 ≤ mid)
    (h1 : mid < p.size_) : (p.removeAt mid).entries = p.entries.eraseIdx mid.toNat := by
  have hsz : (p.removeAt mid).size_ = p.size_ - 1 := rfl
  unfold entries
  rw [hsz, show (p.size_ - 1).toNat = p.size_.toNat - 1 by omega]
  apply slots_erase _ _ _ _ (by omega)
  · intro t ht
    rw [removeAt_array, if_neg (by omega)]
  · intro t ht1 ht2
    rw [removeAt_array, if_pos (by omega)]

/-- On a strictly ascending page, `RemoveAndDeleteRecord` of a key that compares
equal to the key of slot `i` stops its search at `i`. -/
theorem RemoveAndDeleteRecord_found (hc : StrictWeakComparator cmp) (p : BPlusTreeLeafPage K V)
    (key : K) (fuel : Nat) (hs : StrictlyAscending cmp p) (hfuel : p.size_.toNat < fuel)
    (i : Int) (hi0 : 0 ≤ i) (hi1 : i < p.size_) (hk : cmp key (p.KeyAt i) = 0) :
    RemoveAndDeleteRecord cmp p key fuel = some (p.removeAt i, p.size_ - 1) := by
  have hfirst : ¬ cmp key (p.KeyAt 0) < 0 := by
    intro hlt
    rcases lt_or_eq_of_le hi0 with h | h
    · have h3 := ascending_index hc hs 0 i (le_refl 0) h hi1
      have h4 := hc.lt_of_lt_of_eq h3 (hc.eq_symm hk)
      have := (hc.antisymm _ _).mp h4
      omega
    · rw [← h] at hk; omega
  have hlast : ¬ cmp key (p.KeyAt (p.size_ - 1)) > 0 := by
    intro hgt
    rcases lt_or_eq_of_le (show i ≤ p.size_ - 1 by omega) with h | h
    · have h3 := ascending_index hc hs i (p.size_ - 1) hi0 h (by omega)
      have := hc.lt_of_eq_of_lt hk h3
      omega
    · rw [h] at hk; omega
  have hsz : ¬ p.GetSize = 0 := by unfold GetSize; omega
  unfold RemoveAndDeleteRecord
  rw [if_neg (by unfold GetSize; tauto), RemoveAndDeleteRecord_loop_eq_searchIndex,
    searchIndex_found hc hs key fuel 0 (p.GetSize - 1) i (by unfold GetSize; omega)
      (le_refl 0) hi0 (by unfold GetSize; omega) (by unfold GetSize; omega) hk]
  rfl

theorem RemoveAndDeleteRecord_noop (cmp : K → K → Int) (p : BPlusTreeLeafPage K V)
    (key : K) (fuel : Nat) (hfuel : p.size_.toNat < fuel)
    (hno : ∀ e ∈ p.entries, cmp key e.1 ≠ 0) :
    RemoveAndDeleteRecord cmp p key fuel = some (p, p.size_) := by
  unfold RemoveAndDeleteRecord
  split_ifs with hg
  · rfl
  · rw [RemoveAndDeleteRecord_loop_eq_searchIndex,
      searchIndex_absent cmp p key fuel 0 (p.GetSize - 1) (by unfold GetSize; omega)
        (fun j h1 h2 => hno _ ((mem_entries p _).mpr ⟨j, h1, by unfold GetSize at h2; omega, rfl⟩))]
    rfl

/-- C4.  On a page with strictly ascending entries, for a key that compares
equal to the key at index `i`, `RemoveAndDeleteRecord` (with fuel above the
size) returns and removes exactly that entry: the slots before `i` are
unchanged, every entry formerly at an index `j > i` is at `j - 1`, the entries
are the old ones without the `i`-th, the size has dropped by exactly one and
the returned value is the new size. -/
theorem RemoveAndDeleteRecord_removes_entry (hc : StrictWeakComparator cmp)
    (p : BPlusTreeLeafPage K V) (key : K) (fuel : Nat) (hs : StrictlyAscending cmp p)
    (hfuel : p.size_.toNat < fuel) (i : Int) (hi0 : 0 ≤ i) (hi1 : i < p.size_)
    (hk : cmp key (p.KeyAt i) = 0) :
    ∃ p1 n, RemoveAndDeleteRecord cmp p key fuel = some (p1, n) ∧
      (∀ j, 0 ≤ j → j < i → p1.array_ j = p.array_ j) ∧
      (∀ j, i < j → j < p.size_ → p1.array_ (j - 1) = p.array_ j) ∧
      p1.entries = p.entries.eraseIdx i.toNat ∧
      p1.size_ = p.size_ - 1 ∧ n = p1.size_ := by
  refine ⟨p.removeAt i, p.size_ - 1,
    RemoveAndDeleteRecord_found hc p key fuel hs hfuel i hi0 hi1 hk, ?_, ?_,
    removeAt_entries p i hi0 hi1, rfl, rfl⟩
  · intro j hj0 hj1
    rw [removeAt_array, if_neg (by omega)]
  · intro j hj0 hj1
    rw [removeAt_array, if_pos (by omega)]
    congr 1
    omega

/-- C5.  On any page (empty or not, sorted or not), for a key that compares
unequal to every key of the page, `RemoveAndDeleteRecord` (with fuel above the
size) returns the page as it was, header and array included, together with the
current size.  Hence on a strictly ascending page a second call with the same
key changes nothing: it returns the page and the size that the first call
left. -/
theorem RemoveAndDeleteRecord_absent_noop (cmp : K → K → Int) (p : BPlusTreeLeafPage K V)
    (key : K) (fuel : Nat) (hfuel : p.size_.toNat < fuel) :
    ((∀ e ∈ p.entries, cmp key e.1 ≠ 0) →
      RemoveAndDeleteRecord cmp p key fuel = some (p, p.size_)) ∧
    (StrictWeakComparator cmp → StrictlyAscending cmp p →
      ∃ p1 n, RemoveAndDeleteRecord cmp p key fuel = some (p1, n) ∧
        RemoveAndDeleteRecord cmp p1 key fuel = some (p1, n)) := by
  refine ⟨RemoveAndDeleteRecord_noop cmp p key fuel hfuel, fun hc hs => ?_⟩
  by_cases hex : ∃ i, 0 ≤ i ∧ i < p.size_ ∧ cmp key (p.KeyAt i) = 0
  · obtain ⟨i, hi0, hi1, hk⟩ := hex
    refine ⟨p.removeAt i, p.size_ - 1,
      RemoveAndDeleteRecord_found hc p key fuel hs hfuel i hi0 hi1 hk, ?_⟩
    have hsz : (p.removeAt i).size_ = p.size_ - 1 := rfl
    have := RemoveAndDeleteRecord_noop cmp (p.removeAt i) key fuel (by rw [hsz]; omega)
      (by
        intro e he hke
        obtain ⟨j, hj0, hj1, rfl⟩ := (mem_entries _ _).mp he
        rw [hsz] at hj1
        rw [removeAt_array] at hke
        by_cases hij : i ≤ j
        · rw [if_pos ⟨hij, hj1⟩] at hke
          have := match_unique hc hs key i (j + 1) hi0 hi1 (by omega) (by omega) hk hke
          omega
        · rw [if_neg (by omega)] at hke
          have := match_unique hc hs key i j hi0 hi1 hj0 (by omega) hk hke
          omega)
    rw [this, hsz]
  · have hno : ∀ e ∈ p.entries, cmp key e.1 ≠ 0 := by
      intro e he hke
      obtain ⟨j, hj0, hj1, rfl⟩ := (mem_entries _ _).mp he
      exact hex ⟨j, hj0, hj1, hke⟩
    have := RemoveAndDeleteRecord_noop cmp p key fuel hfuel hno
    exact ⟨p, p.size_, this, this⟩

end BPlusTreeLeafPage

/-- The hypotheses and the conclusion of C4 in the scenario of the spec:
`RemoveByKey(3)` on `[(1,B),(3,C),(5,A)]` leaves `[(1,B),(5,A)]` with size 2 and
returns 2. -/
theorem RemoveAndDeleteRecord_removes_entry_witness :
    BPlusTreeLeafPage.StrictlyAscending intCmp page135 ∧ page135.size_.toNat < 4 ∧
    (0 : Int) ≤ 1 ∧ (1 : Int) < page135.size_ ∧ intCmp 3 (page135.KeyAt 1) = 0 ∧
    (BPlusTreeLeafPage.RemoveAndDeleteRecord intCmp page135 3 4).map
      (fun r => (r.1.entries, r.1.size_, r.2)) = some ([(1, 'B'), (5, 'A')], 2, 2) ∧
    ∃ p1 n, BPlusTreeLeafPage.RemoveAndDeleteRecord intCmp page135 3 4 = some (p1, n) ∧
      (∀ j, 0 ≤ j → j < 1 → p1.array_ j = page135.array_ j) ∧
      (∀ j, 1 < j → j < page135.size_ → p1.array_ (j - 1) = page135.array_ j) ∧
      p1.entries = page135.entries.eraseIdx (1 : Int).toNat ∧
      p1.size_ = page135.size_ - 1 ∧ n = p1.size_ :=
  ⟨by decide, by decide, by decide, by decide, by decide, by decide,
    BPlusTreeLeafPage.RemoveAndDeleteRecord_removes_entry intCmp_strictWeak page135 3 4
      (by decide) (by decide) 1 (by decide) (by decide) (by decide)⟩

/-- The hypothesis and the conclusion of C5 on `[(1,B),(5,A)]` and key 3 (the page
after the removal of key 3) and on the empty page, and the repeated removal of
key 3 on `[(1,B),(3,C),(5,A)]`. -/
theorem RemoveAndDeleteRecord_absent_noop_witness :
    page15.size_.toNat < 4 ∧ (∀ e ∈ page15.entries, intCmp 3 e.1 ≠ 0) ∧
    BPlusTreeLeafPage.RemoveAndDeleteRecord intCmp page15 3 4 = some (page15, page15.size_) ∧
    (BPlusTreeLeafPage.RemoveAndDeleteRecord intCmp emptyPage4 3 4).map
      (fun r => (r.1.entries, r.1.size_, r.2)) = some ([], 0, 0) ∧
    ∃ p1 n, BPlusTreeLeafPage.RemoveAndDeleteRecord intCmp page135 3 4 = some (p1, n) ∧
      BPlusTreeLeafPage.RemoveAndDeleteRecord intCmp p1 3 4 = some (p1, n) :=
  ⟨by decide, by decide,
    (BPlusTreeLeafPage.RemoveAndDeleteRecord_absent_noop intCmp page15 3 4 (by decide)).1
      (by decide),
    by decide,
    (BPlusTreeLeafPage.RemoveAndDeleteRecord_absent_noop intCmp page135 3 4 (by decide)).2
      intCmp_strictWeak (by decide)⟩

namespace BPlusTreeLeafPage

variable {K V : Type} {cmp : K → K → Int}

theorem CopyNFrom_loop_eq (items : Int → K × V) (start : Int) :
    ∀ (n : Nat) (i : Int) (a : Int → K × V),
      CopyNFrom.loop items start n i a
        = fun t => if start + i ≤ t ∧ t < start + i + n then items (t - start) else a t := by
  intro n
  induction n with
  | zero =>
    intro i a
    funext t
    simp only [CopyNFrom.loop]
    rw [if_neg (by omega)]
  | succ n ih =>
    intro i a
    funext t
    simp only [CopyNFrom.loop, ih, setSlot]
    split_ifs <;> first | rfl | (exfalso; omega) | (congr 1; omega)

/-- A call of `CopyNFrom` on a leaf page with room for `size` more pairs completes and
appends the first `size` pairs behind the pointer. -/
theorem CopyNFrom_completed (p : BPlusTreeLeafPage K V) (items : Int → K × V) (size : Int)
    (hleaf : p.IsLeafPage = true) (h0 : 0 ≤ p.size_) (hsize : 0 ≤ size)
    (hcap : p.size_ + size ≤ p.max_size_) :
    ∃ p1, p.CopyNFrom items size = Outcome.completed p1 ∧
      p1.entries = p.entries ++ slots items size.toNat ∧
      p1.size_ = p.size_ + size ∧
      p1.next_page_id_ = p.next_page_id_ ∧ p1.max_size_ = p.max_size_ := by
  unfold CopyNFrom
  rw [if_pos ⟨hleaf, hcap⟩]
  refine ⟨_, rfl, ?_, rfl, rfl, rfl⟩
  simp only [entries, IncreaseSize, GetSize]
  rw [show (p.size_ + size).toNat = p.size_.toNat + size.toNat by omega, slots_append,
    CopyNFrom_loop_eq]
  congr 1
  · apply slots_congr
    intro i hi
    rw [if_neg (by omega)]
  · apply slots_congr
    intro i hi
    beta_reduce
    rw [if_pos (by omega)]
    congr 1
    omega

/-- The transfer count of `MoveHalfTo` is the rounded half of the size. -/
theorem half_eq (n mark t : Int) (hn : 1 ≤ n)
    (ht : if mark = 0 then n ≤ 2 * t ∧ 2 * t ≤ n + 1 else 2 * t ≤ n ∧ n ≤ 2 * t + 1) :
    (if mark = 0 then (n + 1).tdiv 2 else n.tdiv 2) = t := by
  rw [Int.tdiv_eq_ediv (by omega) (by norm_num), Int.tdiv_eq_ediv (by omega) (by norm_num)]
  split_ifs with h
  · rw [if_pos h] at ht; omega
  · rw [if_neg h] at ht; omega

/-- The outcome of `MoveHalfTo` with an empty leaf recipient that has room for
`t` pairs. -/
theorem MoveHalfTo_completed (this recipient : BPlusTreeLeafPage K V) (mark t : Int)
    (hn : 1 ≤ this.size_) (hleaf : recipient.IsLeafPage = true) (hempty : recipient.size_ = 0)
    (ht : if mark = 0 then this.size_ ≤ 2 * t ∧ 2 * t ≤ this.size_ + 1
          else 2 * t ≤ this.size_ ∧ this.size_ ≤ 2 * t + 1)
    (hcap : t ≤ recipient.max_size_) :
    ∃ r1, MoveHalfTo this recipient mark
        = Outcome.completed ({ this with size_ := this.size_ - t }, r1) ∧
      r1.entries = this.entries.drop (this.size_ - t).toNat ∧ r1.size_ = t ∧
      r1.next_page_id_ = recipient.next_page_id_ ∧ r1.max_size_ = recipient.max_size_ := by
  have hhalf := half_eq this.size_ mark t hn ht
  have ht0 : 0 ≤ t ∧ t ≤ this.size_ := by
    split_ifs at ht <;> omega
  obtain ⟨r1, hr, hent, hsz, hnext, hmax⟩ := CopyNFrom_completed recipient
    (fun i => this.array_ (this.size_ - t + i)) t hleaf (by omega) ht0.1 (by omega)
  refine ⟨r1, ?_, ?_, by omega, hnext, hmax⟩
  · unfold MoveHalfTo
    simp only [GetSize]
    rw [if_pos (by omega), hhalf, hr]
    simp only [IncreaseSize]
    congr 3
    omega
  · rw [hent]
    have hnil : recipient.entries = [] := by
      unfold entries
      rw [hempty]
      rfl
    rw [hnil, List.nil_append]
    unfold entries
    rw [slots_drop, show this.size_.toNat - (this.size_ - t).toNat = t.toNat by omega]
    apply slots_congr
    intro i _
    congr 1
    omega

/-- The entries of the two pages after `MoveHalfTo` with an empty leaf recipient
that has room for `t` pairs. -/
theorem MoveHalfTo_entries (this recipient : BPlusTreeLeafPage K V) (mark t : Int)
    (hn : 1 ≤ this.size_) (hleaf : recipient.IsLeafPage = true) (hempty : recipient.size_ = 0)
    (ht : if mark = 0 then this.size_ ≤ 2 * t ∧ 2 * t ≤ this.size_ + 1
          else 2 * t ≤ this.size_ ∧ this.size_ ≤ 2 * t + 1)
    (hcap : t ≤ recipient.max_size_) :
    ∃ t1 r1, MoveHalfTo this recipient mark = Outcome.completed (t1, r1) ∧
      t1.size_ = this.size_ - t ∧ r1.size_ = t ∧ t1.array_ = this.array_ ∧
      t1.entries = this.entries.take (this.size_ - t).toNat ∧
      r1.entries = this.entries.drop (this.size_ - t).toNat := by
  obtain ⟨r1, hres, hent, hsz, _, _⟩ :=
    MoveHalfTo_completed this recipient mark t hn hleaf hempty ht hcap
  have ht0 : 0 ≤ t ∧ t ≤ this.size_ := by
    split_ifs at ht <;> omega
  have htake : ({ this with size_ := this.size_ - t } : BPlusTreeLeafPage K V).entries
      = this.entries.take (this.size_ - t).toNat := by
    unfold entries
    rw [slots_take, show min (this.size_ - t).toNat this.size_.toNat = (this.size_ - t).toNat
      by omega]
  exact ⟨_, r1, hres, rfl, hsz, rfl, htake, hent⟩

/-- C6.  For a page `this` with size `n ≥ 1` and an empty leaf recipient with
`maxSize ≥ t`, where `t` is `⌈n/2⌉` when `mark = 0` (that is `n ≤ 2t ≤ n+1`) and
`⌊n/2⌋` otherwise (that is `2t ≤ n ≤ 2t+1`), `MoveHalfTo` completes and
transfers exactly `t` entries: `this` keeps its first `n - t` entries
unchanged, the recipient holds exactly the last `t` entries of the old `this`
in the same order, and the old entries are those of `this` followed by those of
the recipient. -/
theorem MoveHalfTo_transfers_half (this recipient : BPlusTreeLeafPage K V) (mark t : Int)
    (hn : 1 ≤ this.size_) (hleaf : recipient.IsLeafPage = true) (hempty : recipient.size_ = 0)
    (ht : if mark = 0 then this.size_ ≤ 2 * t ∧ 2 * t ≤ this.size_ + 1
          else 2 * t ≤ this.size_ ∧ this.size_ ≤ 2 * t + 1)
    (hcap : t ≤ recipient.max_size_) :
    ∃ t1 r1, MoveHalfTo this recipient mark = Outcome.completed (t1, r1) ∧
      t1.size_ = this.size_ - t ∧ r1.size_ = t ∧
      (∀ j, 0 ≤ j → j < this.size_ - t → t1.array_ j = this.array_ j) ∧
      t1.entries = this.entries.take (this.size_ - t).toNat ∧
      r1.entries = this.entries.drop (this.size_ - t).toNat ∧
      this.entries = t1.entries ++ r1.entries := by
  obtain ⟨t1, r1, hres, hsz1, hsz2, harr, htake, hdrop⟩ :=
    MoveHalfTo_entries this recipient mark t hn hleaf hempty ht hcap
  refine ⟨t1, r1, hres, hsz1, hsz2, fun j _ _ => ?_, htake, hdrop, ?_⟩
  · rw [harr]
  · rw [htake, hdrop, List.take_append_drop]

/-- C7.  For a page `this` with strictly ascending entries and size at least 1,
an empty leaf recipient with room for the transfer count `t` (the rounded half
of the size, up when `mark = 0` and down otherwise), `MoveHalfTo` completes, the
two sizes add up to the old size of `this`, every key in the recipient is above
every key that stays in `this`, and both pages are strictly ascending. -/
theorem MoveHalfTo_keeps_order (hc : StrictWeakComparator cmp)
    (this recipient : BPlusTreeLeafPage K V) (mark t : Int)
    (hs : StrictlyAscending cmp this)
    (hn : 1 ≤ this.size_) (hleaf : recipient.IsLeafPage = true) (hempty : recipient.size_ = 0)
    (ht : if mark = 0 then this.size_ ≤ 2 * t ∧ 2 * t ≤ this.size_ + 1
          else 2 * t ≤ this.size_ ∧ this.size_ ≤ 2 * t + 1)
    (hcap : t ≤ recipient.max_size_) :
    ∃ t1 r1, MoveHalfTo this recipient mark = Outcome.completed (t1, r1) ∧
      t1.size_ + r1.size_ = this.size_ ∧
      (∀ a ∈ t1.entries, ∀ b ∈ r1.entries, cmp a.1 b.1 < 0) ∧
      StrictlyAscending cmp t1 ∧ StrictlyAscending cmp r1 := by
  obtain ⟨t1, r1, hres, hsz1, hsz2, _, htake, hdrop⟩ :=
    MoveHalfTo_entries this recipient mark t hn hleaf hempty ht hcap
  have hp := Ascending.pairwise hc hs
  rw [← List.take_append_drop (this.size_ - t).toNat this.entries, List.pairwise_append,
    ← htake, ← hdrop] at hp
  exact ⟨t1, r1, hres, by omega, hp.2.2, Ascending.of_pairwise hp.1,
    Ascending.of_pairwise hp.2.1⟩

end BPlusTreeLeafPage

/-- The hypotheses and the conclusion of C6 in the scenario of the spec:
`[(1,a),(2,b),(3,c),(4,d)]` split with rounding down (`mark = 1`, `t = 2`) into
an empty recipient gives `[(1,a),(2,b)]` and `[(3,c),(4,d)]`. -/
theorem MoveHalfTo_transfers_half_witness :
    (1 : Int) ≤ page1234.size_ ∧ emptyPage4.IsLeafPage = true ∧ emptyPage4.size_ = 0 ∧
    (2 : Int) ≤ emptyPage4.max_size_ ∧
    completedEntries (BPlusTreeLeafPage.MoveHalfTo page1234 emptyPage4 1)
      = some ([(1, 'a'), (2, 'b')], [(3, 'c'), (4, 'd')]) ∧
    ∃ t1 r1, BPlusTreeLeafPage.MoveHalfTo page1234 emptyPage4 1 = Outcome.completed (t1, r1) ∧
      t1.size_ = page1234.size_ - 2 ∧ r1.size_ = 2 ∧
      (∀ j, 0 ≤ j → j < page1234.size_ - 2 → t1.array_ j = page1234.array_ j) ∧
      t1.entries = page1234.entries.take (page1234.size_ - 2).toNat ∧
      r1.entries = page1234.entries.drop (page1234.size_ - 2).toNat ∧
      page1234.entries = t1.entries ++ r1.entries :=
  ⟨by decide, by decide, by decide, by decide, by decide,
    BPlusTreeLeafPage.MoveHalfTo_transfers_half page1234 emptyPage4 1 2
      (by decide) (by decide) (by decide) (by decide) (by decide)⟩

/-- The hypotheses and the conclusion of C7 on `[(1,B),(3,C),(5,A)]` split with
rounding up (`mark = 0`, `t = 2`) into an empty recipient. -/
theorem MoveHalfTo_keeps_order_witness :
    BPlusTreeLeafPage.StrictlyAscending intCmp page135 ∧
    (1 : Int) ≤ page135.size_ ∧ emptyPage4.IsLeafPage = true ∧ emptyPage4.size_ = 0 ∧
    (2 : Int) ≤ emptyPage4.max_size_ ∧
    completedEntries (BPlusTreeLeafPage.MoveHalfTo page135 emptyPage4 0)
      = some ([(1, 'B')], [(3, 'C'), (5, 'A')]) ∧
    ∃ t1 r1, BPlusTreeLeafPage.MoveHalfTo page135 emptyPage4 0 = Outcome.completed (t1, r1) ∧
      t1.size_ + r1.size_ = page135.size_ ∧
      (∀ a ∈ t1.entries, ∀ b ∈ r1.entries, intCmp a.1 b.1 < 0) ∧
      BPlusTreeLeafPage.StrictlyAscending intCmp t1 ∧
      BPlusTreeLeafPage.StrictlyAscending intCmp r1 :=
  ⟨by decide, by decide, by decide, by decide, by decide, by decide,
    BPlusTreeLeafPage.MoveHalfTo_keeps_order intCmp_strictWeak page135 emptyPage4 0 2
      (by decide) (by decide) (by decide) (by decide) (by decide) (by decide)⟩

theorem slots_tail {α : Type} (a : Int → α) (n : Nat) :
    (slots a n).tail = slots (fun t => a (t + 1)) (n - 1) := by
  rw [← List.drop_one, slots_drop]
  apply slots_congr
  intro i _
  congr 1
  omega

theorem slots_dropLast {α : Type} (a : Int → α) (n : Nat) :
    (slots a n).dropLast = slots a (n - 1) := by
  rw [List.dropLast_eq_take, slots_length, slots_take]
  congr 1
  omega

theorem slots_cons {α : Type} (a : Int → α) (n : Nat) :
    slots a (n + 1) = a 0 :: slots (fun t => a (t + 1)) n := by
  rw [show n + 1 = 1 + n by omega, slots_append]
  have h1 : slots a 1 = [a 0] := by simp [slots, List.range_succ]
  rw [h1]
  simp only [List.singleton_append, List.cons.injEq, true_and]
  apply slots_congr
  intro i _
  congr 1
  omega

namespace BPlusTreeLeafPage

variable {K V : Type} {cmp : K → K → Int}

/-- C8.  For a page `this` and a leaf recipient (sizes not negative) with
`size(recipient) + size(this) ≤ maxSize(recipient)`, and for every value of the
separator key, `MoveAllTo` completes; the recipient then holds its old entries
followed by all old entries of `this` in order (strictly ascending when both
were and every old recipient key is below every key of `this`), the size of
`this` is 0, the size of the recipient is the sum of the two old sizes, and the
recipient's next page id is the old next page id of `this`. -/
theorem MoveAllTo_appends_all (cmp : K → K → Int) (this recipient : BPlusTreeLeafPage K V)
    (middle_key : K) (hleaf : recipient.IsLeafPage = true) (ht0 : 0 ≤ this.size_)
    (hr0 : 0 ≤ recipient.size_)
    (hcap : recipient.size_ + this.size_ ≤ recipient.max_size_) :
    ∃ t1 r1, MoveAllTo this recipient middle_key = Outcome.completed (t1, r1) ∧
      r1.entries = recipient.entries ++ this.entries ∧
      t1.size_ = 0 ∧ r1.size_ = recipient.size_ + this.size_ ∧
      r1.next_page_id_ = this.next_page_id_ ∧
      (StrictWeakComparator cmp → StrictlyAscending cmp recipient →
        StrictlyAscending cmp this →
        (∀ a ∈ recipient.entries, ∀ b ∈ this.entries, cmp a.1 b.1 < 0) →
        StrictlyAscending cmp r1) := by
  obtain ⟨r1, hr, hent, hsz, _, _⟩ := CopyNFrom_completed recipient
    (fun i => this.array_ i) this.size_ hleaf hr0 ht0 hcap
  have hent2 : (r1.SetNextPageId this.next_page_id_).entries
      = recipient.entries ++ this.entries := hent
  refine ⟨this.IncreaseSize (-1 * this.GetSize), r1.SetNextPageId this.next_page_id_,
    ?_, hent2, ?_, hsz, rfl, ?_⟩
  · unfold MoveAllTo
    simp only [GetSize] at hr ⊢
    rw [hr]
    rfl
  · simp only [IncreaseSize, GetSize]
    omega
  · intro hc hs1 hs2 hcross
    unfold StrictlyAscending
    rw [hent2]
    apply Ascending.of_pairwise
    rw [List.pairwise_append]
    exact ⟨Ascending.pairwise hc hs1, Ascending.pairwise hc hs2, hcross⟩

/-- C9.  For a page `this` with size at least 1 and a recipient (size not
negative) with `size(recipient) + 1 ≤ maxSize(recipient)`, `MoveFirstToEndOf`
completes; `this` then holds its old entries `1 .. size-1` in order, each one
slot to the left, the recipient holds its old entries followed by the old first
entry of `this`, the size of `this` has dropped by 1 and the size of the
recipient has grown by 1.  Hence recipient followed by `this` is the same
sequence before and after, the sum of the sizes is kept, and that sequence stays
strictly ascending if it was. -/
theorem MoveFirstToEndOf_moves_first (cmp : K → K → Int)
    (this recipient : BPlusTreeLeafPage K V)
    (hn : 1 ≤ this.size_) (hr0 : 0 ≤ recipient.size_)
    (hcap : recipient.size_ + 1 ≤ recipient.max_size_) :
    ∃ t1 r1, MoveFirstToEndOf this recipient = Outcome.completed (t1, r1) ∧
      t1.entries = this.entries.tail ∧
      (∀ j, 0 ≤ j → j < this.size_ - 1 → t1.array_ j = this.array_ (j + 1)) ∧
      r1.entries = recipient.entries ++ [this.array_ 0] ∧
      t1.size_ = this.size_ - 1 ∧ r1.size_ = recipient.size_ + 1 ∧
      r1.entries ++ t1.entries = recipient.entries ++ this.entries ∧
      t1.size_ + r1.size_ = this.size_ + recipient.size_ ∧
      (Ascending cmp (recipient.entries ++ this.entries) →
        Ascending cmp (r1.entries ++ t1.entries)) := by
  have harr : ∀ j, 0 ≤ j → j < this.size_ - 1 →
      memmove this.array_ 0 1 this.GetSize j = this.array_ (j + 1) := by
    intro j hj0 hj1
    simp only [memmove, GetSize]
    rw [if_pos (by omega)]
    congr 1
    omega
  have ht1 : (({ this with array_ := memmove this.array_ 0 1 this.GetSize } :
      BPlusTreeLeafPage K V).IncreaseSize (-1)).entries = this.entries.tail := by
    simp only [entries, IncreaseSize]
    rw [slots_tail, show (this.size_ + -1).toNat = this.size_.toNat - 1 by omega]
    apply slots_congr
    intro i hi
    exact harr i (by omega) (by omega)
  have hr1 : (({ recipient with
        array_ := setSlot recipient.array_ recipient.GetSize (this.GetItem 0) } :
      BPlusTreeLeafPage K V).IncreaseSize 1).entries
      = recipient.entries ++ [this.array_ 0] := by
    simp only [entries, IncreaseSize, GetSize, GetItem]
    rw [show (recipient.size_ + 1).toNat = recipient.size_.toNat + 1 by omega, slots_succ]
    congr 1
    · apply slots_congr
      intro i hi
      simp only [setSlot]
      rw [if_neg (by omega)]
    · simp only [setSlot]
      rw [if_pos (by omega)]
  have hhead : this.entries = this.array_ 0 :: this.entries.tail := by
    unfold entries
    rw [slots_tail]
    obtain ⟨m, hm⟩ : ∃ m, this.size_.toNat = m + 1 := ⟨this.size_.toNat - 1, by omega⟩
    rw [hm, slots_cons]
    rfl
  have hcat : (recipient.entries ++ [this.array_ 0]) ++ this.entries.tail
      = recipient.entries ++ this.entries := by
    rw [List.append_assoc, List.singleton_append, ← hhead]
  refine ⟨_, _, ?_, ht1, harr, hr1, ?_, ?_, ?_, ?_, ?_⟩
  · unfold MoveFirstToEndOf CopyLastFrom
    simp only [GetSize, GetMaxSize]
    rw [if_pos hcap]
  · simp only [IncreaseSize]; omega
  · simp only [IncreaseSize]
  · rw [ht1, hr1, hcat]
  · simp only [IncreaseSize]; omega
  · intro h
    rw [ht1, hr1, hcat]
    exact h

end BPlusTreeLeafPage

namespace BPlusTreeLeafPage

variable {K V : Type} {cmp : K → K → Int}

/-- A call of `CopyFirstFrom` with room to spare puts the pair in front of the entries. -/
theorem CopyFirstFrom_completed (p : BPlusTreeLeafPage K V) (item : K × V)
    (h0 : 0 ≤ p.size_) (hcap : p.size_ + 1 < p.max_size_) :
    ∃ p1, p.CopyFirstFrom item = Outcome.completed p1 ∧
      p1.entries = item :: p.entries ∧ p1.size_ = p.size_ + 1 ∧ p1.array_ 0 = item ∧
      (∀ j, 0 ≤ j → j < p.size_ → p1.array_ (j + 1) = p.array_ j) := by
  unfold CopyFirstFrom
  simp only [GetSize, GetMaxSize]
  rw [if_pos hcap]
  have harr : ∀ j, 0 ≤ j → j < p.size_ →
      setSlot (memmove p.array_ 1 0 p.size_) 0 item (j + 1) = p.array_ j := by
    intro j hj0 hj1
    simp only [setSlot, memmove]
    rw [if_neg (by omega), if_pos (by omega)]
    congr 1
    omega
  refine ⟨_, rfl, ?_, rfl, ?_, harr⟩
  · simp only [entries, IncreaseSize]
    rw [show (p.size_ + 1).toNat = p.size_.toNat + 1 by omega, slots_cons]
    congr 1
    apply slots_congr
    intro i hi
    exact harr i (by omega) (by omega)
  · simp only [IncreaseSize, setSlot, if_true]

/-- C10.  For a page `this` with size at least 1 and a recipient (size not
negative), `MoveLastToFrontOf` completes exactly when
`size(recipient) + 1 < maxSize(recipient)`, and whenever it completes `this`
holds its old entries `0 .. size-2` unchanged, the recipient holds the old last
entry of `this` at index 0 followed by all its old entries in order, each one
slot to the right, the size of `this` has dropped by 1 and the size of the
recipient has grown by 1.  Hence `this` followed by the recipient is the same
sequence before and after, the sum of the sizes is kept, and that sequence stays
strictly ascending if it was. -/
theorem MoveLastToFrontOf_moves_last (cmp : K → K → Int)
    (this recipient : BPlusTreeLeafPage K V)
    (hn : 1 ≤ this.size_) (hr0 : 0 ≤ recipient.size_) :
    ((∃ s, MoveLastToFrontOf this recipient = Outcome.completed s)
      ↔ recipient.size_ + 1 < recipient.max_size_) ∧
    ∀ t1 r1, MoveLastToFrontOf this recipient = Outcome.completed (t1, r1) →
      t1.entries = this.entries.dropLast ∧
      (∀ j, 0 ≤ j → j < this.size_ - 1 → t1.array_ j = this.array_ j) ∧
      r1.entries = this.array_ (this.size_ - 1) :: recipient.entries ∧
      r1.array_ 0 = this.array_ (this.size_ - 1) ∧
      (∀ j, 0 ≤ j → j < recipient.size_ → r1.array_ (j + 1) = recipient.array_ j) ∧
      t1.size_ = this.size_ - 1 ∧ r1.size_ = recipient.size_ + 1 ∧
      t1.entries ++ r1.entries = this.entries ++ recipient.entries ∧
      t1.size_ + r1.size_ = this.size_ + recipient.size_ ∧
      (Ascending cmp (this.entries ++ recipient.entries) →
        Ascending cmp (t1.entries ++ r1.entries)) := by
  have hpair : (this.IncreaseSize (-1)).array_ (this.IncreaseSize (-1)).GetSize
      = this.array_ (this.size_ - 1) := by
    simp only [IncreaseSize, GetSize]
    congr 1
  have ht1 : (this.IncreaseSize (-1)).entries = this.entries.dropLast := by
    simp only [entries, IncreaseSize]
    rw [slots_dropLast, show (this.size_ + -1).toNat = this.size_.toNat - 1 by omega]
  have hlast : this.entries = this.entries.dropLast ++ [this.array_ (this.size_ - 1)] := by
    unfold entries
    rw [slots_dropLast]
    obtain ⟨m, hm⟩ : ∃ m, this.size_.toNat = m + 1 := ⟨this.size_.toNat - 1, by omega⟩
    rw [hm, slots_succ, Nat.add_sub_cancel]
    congr 3
    omega
  by_cases hcap : recipient.size_ + 1 < recipient.max_size_
  · obtain ⟨r1, hr, hent, hsz, hzero, hshift⟩ :=
      CopyFirstFrom_completed recipient (this.array_ (this.size_ - 1)) hr0 hcap
    have hres : MoveLastToFrontOf this recipient
        = Outcome.completed (this.IncreaseSize (-1), r1) := by
      unfold MoveLastToFrontOf
      simp only [hpair, hr]
    refine ⟨⟨fun _ => hcap, fun _ => ⟨_, hres⟩⟩, ?_⟩
    intro t1 r1' heq
    rw [hres] at heq
    have h1 : this.IncreaseSize (-1) = t1 := congrArg Prod.fst (Outcome.completed.inj heq)
    have h2 : r1 = r1' := congrArg Prod.snd (Outcome.completed.inj heq)
    subst h1 h2
    have hcat : this.entries.dropLast ++ (this.array_ (this.size_ - 1) :: recipient.entries)
        = this.entries ++ recipient.entries := by
      conv_rhs => rw [hlast]
      simp
    refine ⟨ht1, fun j _ _ => rfl, hent, hzero, hshift, ?_, hsz, ?_, ?_, ?_⟩
    · simp only [IncreaseSize]; omega
    · rw [ht1, hent, hcat]
    · simp only [IncreaseSize]; omega
    · intro h
      rw [ht1, hent, hcat]
      exact h
  · have hres : MoveLastToFrontOf this recipient
        = Outcome.assertFailed (this.IncreaseSize (-1), recipient) := by
      unfold MoveLastToFrontOf CopyFirstFrom
      simp only [GetSize, GetMaxSize]
      rw [if_neg hcap]
    refine ⟨⟨fun ⟨s, hs⟩ => ?_, fun h => absurd h hcap⟩, ?_⟩
    · rw [hres] at hs
      exact Outcome.noConfusion hs
    · intro t1 r1 heq
      rw [hres] at heq
      exact Outcome.noConfusion heq

end BPlusTreeLeafPage

/-- The hypotheses and the conclusion of C8 in the scenario of the spec: after
`R.MergeInto(L)` with `L = [(1,a),(2,b)]` and `R = [(3,c),(4,d)]`, `L` holds the
four entries in order, has size 4 and no successor, and `R` is empty. -/
theorem MoveAllTo_appends_all_witness :
    pageL.IsLeafPage = true ∧ (0 : Int) ≤ pageR.size_ ∧ (0 : Int) ≤ pageL.size_ ∧
    pageL.size_ + pageR.size_ ≤ pageL.max_size_ ∧
    completedEntries (BPlusTreeLeafPage.MoveAllTo pageR pageL 3)
      = some ([], [(1, 'a'), (2, 'b'), (3, 'c'), (4, 'd')]) ∧
    ∃ t1 r1, BPlusTreeLeafPage.MoveAllTo pageR pageL 3 = Outcome.completed (t1, r1) ∧
      r1.entries = pageL.entries ++ pageR.entries ∧
      t1.size_ = 0 ∧ r1.size_ = pageL.size_ + pageR.size_ ∧
      r1.next_page_id_ = pageR.next_page_id_ ∧
      (StrictWeakComparator intCmp → BPlusTreeLeafPage.StrictlyAscending intCmp pageL →
        BPlusTreeLeafPage.StrictlyAscending intCmp pageR →
        (∀ a ∈ pageL.entries, ∀ b ∈ pageR.entries, intCmp a.1 b.1 < 0) →
        BPlusTreeLeafPage.StrictlyAscending intCmp r1) :=
  ⟨by decide, by decide, by decide, by decide, by decide,
    BPlusTreeLeafPage.MoveAllTo_appends_all intCmp pageR pageL 3
      (by decide) (by decide) (by decide) (by decide)⟩

/-- The hypotheses and the conclusion of C9 on `this = [(1,B),(3,C),(5,A)]` and
the left sibling `[(0,z)]`. -/
theorem MoveFirstToEndOf_moves_first_witness :
    (1 : Int) ≤ page135.size_ ∧ (0 : Int) ≤ page0.size_ ∧
    page0.size_ + 1 ≤ page0.max_size_ ∧
    completedEntries (BPlusTreeLeafPage.MoveFirstToEndOf page135 page0)
      = some ([(3, 'C'), (5, 'A')], [(0, 'z'), (1, 'B')]) ∧
    ∃ t1 r1, BPlusTreeLeafPage.MoveFirstToEndOf page135 page0 = Outcome.completed (t1, r1) ∧
      t1.entries = page135.entries.tail ∧
      (∀ j, 0 ≤ j → j < page135.size_ - 1 → t1.array_ j = page135.array_ (j + 1)) ∧
      r1.entries = page0.entries ++ [page135.array_ 0] ∧
      t1.size_ = page135.size_ - 1 ∧ r1.size_ = page0.size_ + 1 ∧
      r1.entries ++ t1.entries = page0.entries ++ page135.entries ∧
      t1.size_ + r1.size_ = page135.size_ + page0.size_ ∧
      (Ascending intCmp (page0.entries ++ page135.entries) →
        Ascending intCmp (r1.entries ++ t1.entries)) :=
  ⟨by decide, by decide, by decide, by decide,
    BPlusTreeLeafPage.MoveFirstToEndOf_moves_first intCmp page135 page0
      (by decide) (by decide) (by decide)⟩

/-- The hypotheses and the conclusion of C10 on `this = [(1,B),(3,C),(5,A)]` and
the right sibling `[(7,x)]`. -/
theorem MoveLastToFrontOf_moves_last_witness :
    (1 : Int) ≤ page135.size_ ∧ (0 : Int) ≤ page7.size_ ∧
    completedEntries (BPlusTreeLeafPage.MoveLastToFrontOf page135 page7)
      = some ([(1, 'B'), (3, 'C')], [(5, 'A'), (7, 'x')]) ∧
    ((∃ s, BPlusTreeLeafPage.MoveLastToFrontOf page135 page7 = Outcome.completed s)
      ↔ page7.size_ + 1 < page7.max_size_) ∧
    ∀ t1 r1, BPlusTreeLeafPage.MoveLastToFrontOf page135 page7 = Outcome.completed (t1, r1) →
      t1.entries = page135.entries.dropLast ∧
      (∀ j, 0 ≤ j → j < page135.size_ - 1 → t1.array_ j = page135.array_ j) ∧
      r1.entries = page135.array_ (page135.size_ - 1) :: page7.entries ∧
      r1.array_ 0 = page135.array_ (page135.size_ - 1) ∧
      (∀ j, 0 ≤ j → j < page7.size_ → r1.array_ (j + 1) = page7.array_ j) ∧
      t1.size_ = page135.size_ - 1 ∧ r1.size_ = page7.size_ + 1 ∧
      t1.entries ++ r1.entries = page135.entries ++ page7.entries ∧
      t1.size_ + r1.size_ = page135.size_ + page7.size_ ∧
      (Ascending intCmp (page135.entries ++ page7.entries) →
        Ascending intCmp (t1.entries ++ r1.entries)) :=
  ⟨by decide, by decide, by decide,
    BPlusTreeLeafPage.MoveLastToFrontOf_moves_last intCmp page135 page7
      (by decide) (by decide)⟩

namespace BPlusTreeLeafPage

variable {K V : Type} {cmp : K → K → Int}

theorem Insert_max_size (cmp : K → K → Int) (p : BPlusTreeLeafPage K V) (key : K) (value : V) :
    (Insert cmp p key value).1.max_size_ = p.max_size_ := by
  unfold Insert
  split_ifs <;> rfl

theorem mem_removeAt_entries (p : BPlusTreeLeafPage K V) (i : Int) (hi0 : 0 ≤ i)
    (hi1 : i < p.size_) (e : K × V) :
    e ∈ (p.removeAt i).entries ↔ ∃ j, 0 ≤ j ∧ j < p.size_ ∧ j ≠ i ∧ p.array_ j = e := by
  have hsz : (p.removeAt i).size_ = p.size_ - 1 := rfl
  rw [mem_entries, hsz]
  constructor
  · rintro ⟨j, hj0, hj1, rfl⟩
    rw [removeAt_array]
    by_cases hij : i ≤ j
    · rw [if_pos ⟨hij, hj1⟩]
      exact ⟨j + 1, by omega, by omega, by omega, rfl⟩
    · rw [if_neg (by omega)]
      exact ⟨j, hj0, by omega, by omega, rfl⟩
  · rintro ⟨j, hj0, hj1, hne, rfl⟩
    rcases Int.lt_or_lt_of_ne hne with h | h
    · refine ⟨j, hj0, by omega, ?_⟩
      rw [removeAt_array, if_neg (by omega)]
    · refine ⟨j - 1, by omega, by omega, ?_⟩
      rw [removeAt_array, if_pos (by omega)]
      congr 1
      omega

theorem removeAt_ascending (hc : StrictWeakComparator cmp) (p : BPlusTreeLeafPage K V)
    (hs : StrictlyAscending cmp p) (i : Int) (hi0 : 0 ≤ i) (hi1 : i < p.size_) :
    StrictlyAscending cmp (p.removeAt i) := by
  unfold StrictlyAscending
  rw [removeAt_entries p i hi0 hi1]
  exact Ascending.of_pairwise
    (List.Pairwise.sublist (List.eraseIdx_sublist _ _) (Ascending.pairwise hc hs))

/-- An `Insert` of a key that is not present keeps the page a representation of
the finite map. -/
theorem Insert_refines (hc : StrictWeakComparator cmp) (p : BPlusTreeLeafPage K V)
    (hist : List (Op K V)) (key : K) (value : V)
    (hs : StrictlyAscending cmp p) (h0 : 0 ≤ p.size_)
    (hnew : ∀ e ∈ p.entries, cmp key e.1 ≠ 0)
    (habs : ∀ k v, (∃ e ∈ p.entries, cmp k e.1 = 0 ∧ e.2 = v)
      ↔ expectedLookup cmp k hist = some v) :
    ∀ k v, (∃ e ∈ (Insert cmp p key value).1.entries, cmp k e.1 = 0 ∧ e.2 = v)
      ↔ expectedLookup cmp k (Op.insert key value :: hist) = some v := by
  have hent := Insert_entries hc p key value hs h0 hnew
  have hmem : ∀ e, e ∈ (Insert cmp p key value).1.entries ↔ e = (key, value) ∨ e ∈ p.entries := by
    intro e
    rw [hent, List.mem_append, List.mem_cons]
    conv_rhs => rw [← List.take_append_drop (KeyIndex cmp p key).toNat p.entries,
      List.mem_append]
    tauto
  intro k v
  simp only [expectedLookup]
  by_cases hk : cmp k key = 0
  · rw [if_pos hk]
    constructor
    · rintro ⟨e, he, hke, rfl⟩
      rcases (hmem e).mp he with h | h
      · rw [h]
      · exact absurd (hc.equiv_trans _ _ _ (hc.eq_symm hk) hke) (hnew e h)
    · intro hv
      exact ⟨(key, value), (hmem _).mpr (Or.inl rfl), hk, Option.some.inj hv⟩
  · rw [if_neg hk, ← habs k v]
    constructor
    · rintro ⟨e, he, hke, rfl⟩
      rcases (hmem e).mp he with h | h
      · rw [h] at hke; exact absurd hke hk
      · exact ⟨e, h, hke, rfl⟩
    · rintro ⟨e, he, hke, rfl⟩
      exact ⟨e, (hmem e).mpr (Or.inr he), hke, rfl⟩

/-- A call of `RemoveAndDeleteRecord` returns and keeps the page a strictly ascending
representation of the finite map. -/
theorem RemoveAndDeleteRecord_refines (hc : StrictWeakComparator cmp)
    (p : BPlusTreeLeafPage K V) (hist : List (Op K V)) (key : K) (fuel : Nat)
    (hs : StrictlyAscending cmp p) (h0 : 0 ≤ p.size_) (hfuel : p.size_.toNat < fuel)
    (habs : ∀ k v, (∃ e ∈ p.entries, cmp k e.1 = 0 ∧ e.2 = v)
      ↔ expectedLookup cmp k hist = some v) :
    ∃ p1 n, RemoveAndDeleteRecord cmp p key fuel = some (p1, n) ∧
      StrictlyAscending cmp p1 ∧ 0 ≤ p1.size_ ∧ p1.size_ ≤ p.size_ ∧
      p1.max_size_ = p.max_size_ ∧
      ∀ k v, (∃ e ∈ p1.entries, cmp k e.1 = 0 ∧ e.2 = v)
        ↔ expectedLookup cmp k (Op.remove key :: hist) = some v := by
  by_cases hex : ∃ i, 0 ≤ i ∧ i < p.size_ ∧ cmp key (p.KeyAt i) = 0
  · obtain ⟨i, hi0, hi1, hki⟩ := hex
    have hsz : (p.removeAt i).size_ = p.size_ - 1 := rfl
    refine ⟨p.removeAt i, p.size_ - 1,
      RemoveAndDeleteRecord_found hc p key fuel hs hfuel i hi0 hi1 hki,
      removeAt_ascending hc p hs i hi0 hi1, by omega, by omega, rfl, ?_⟩
    intro k v
    simp only [expectedLookup]
    by_cases hk : cmp k key = 0
    · rw [if_pos hk]
      constructor
      · rintro ⟨e, he, hke, _⟩
        obtain ⟨j, hj0, hj1, hne, rfl⟩ := (mem_removeAt_entries p i hi0 hi1 e).mp he
        have h2 : cmp key (p.KeyAt j) = 0 := hc.equiv_trans _ _ _ (hc.eq_symm hk) hke
        exact absurd (match_unique hc hs key j i hj0 hj1 hi0 hi1 h2 hki) hne
      · intro h
        exact Option.noConfusion h
    · rw [if_neg hk, ← habs k v]
      constructor
      · rintro ⟨e, he, hke, rfl⟩
        obtain ⟨j, hj0, hj1, _, rfl⟩ := (mem_removeAt_entries p i hi0 hi1 e).mp he
        exact ⟨_, (mem_entries p _).mpr ⟨j, hj0, hj1, rfl⟩, hke, rfl⟩
      · rintro ⟨e, he, hke, rfl⟩
        obtain ⟨j, hj0, hj1, rfl⟩ := (mem_entries p _).mp he
        have hne : j ≠ i := by
          intro hji
          rw [hji] at hke
          exact hk (hc.equiv_trans _ _ _ hke (hc.eq_symm hki))
        exact ⟨_, (mem_removeAt_entries p i hi0 hi1 _).mpr ⟨j, hj0, hj1, hne, rfl⟩, hke, rfl⟩
  · have hno : ∀ e ∈ p.entries, cmp key e.1 ≠ 0 := by
      intro e he hke
      obtain ⟨j, hj0, hj1, rfl⟩ := (mem_entries _ _).mp he
      exact hex ⟨j, hj0, hj1, hke⟩
    refine ⟨p, p.size_, RemoveAndDeleteRecord_noop cmp p key fuel hfuel hno, hs, h0,
      le_refl _, rfl, ?_⟩
    intro k v
    simp only [expectedLookup]
    by_cases hk : cmp k key = 0
    · rw [if_pos hk]
      constructor
      · rintro ⟨e, he, hke, _⟩
        exact absurd (hc.equiv_trans _ _ _ (hc.eq_symm hk) hke) (hno e he)
      · intro h
        exact Option.noConfusion h
    · rw [if_neg hk]
      exact habs k v

end BPlusTreeLeafPage

/-- A run of allowed calls returns and ends on a strictly ascending page that
represents the finite map of the calls. -/
theorem applyOps_refines {K V : Type} {cmp : K → K → Int} (hc : StrictWeakComparator cmp)
    (fuel : Nat) (M : Int) (hfuel : M.toNat < fuel) :
    ∀ (ops : List (Op K V)) (p : BPlusTreeLeafPage K V) (hist : List (Op K V)),
      BPlusTreeLeafPage.StrictlyAscending cmp p → 0 ≤ p.size_ → p.size_ ≤ M →
      p.max_size_ ≤ M →
      (∀ k v, (∃ e ∈ p.entries, cmp k e.1 = 0 ∧ e.2 = v)
        ↔ expectedLookup cmp k hist = some v) →
      Admissible cmp fuel p ops →
      ∃ p1, applyOps cmp fuel p ops = some p1 ∧
        BPlusTreeLeafPage.StrictlyAscending cmp p1 ∧ 0 ≤ p1.size_ ∧ p1.size_ ≤ M ∧
        ∀ k v, (∃ e ∈ p1.entries, cmp k e.1 = 0 ∧ e.2 = v)
          ↔ expectedLookup cmp k (ops.reverse ++ hist) = some v := by
  intro ops
  induction ops with
  | nil =>
    intro p hist hs h0 hM _ habs _
    exact ⟨p, rfl, hs, h0, hM, by simpa using habs⟩
  | cons op rest ih =>
    intro p hist hs h0 hM hmax habs hadm
    obtain ⟨hallow, hrest⟩ := hadm
    have hrev : (op :: rest).reverse ++ hist = rest.reverse ++ (op :: hist) := by simp
    rw [hrev]
    cases op with
    | insert key value =>
      obtain ⟨hnew, hcap⟩ := hallow
      have hs1 := BPlusTreeLeafPage.Insert_ascending hc p key value hs h0 hnew
      have hsz1 := (BPlusTreeLeafPage.Insert_array hc p key value hs h0 hnew).1
      have habs1 := BPlusTreeLeafPage.Insert_refines hc p hist key value hs h0 hnew habs
      obtain ⟨p1, hrun, hres⟩ := ih (BPlusTreeLeafPage.Insert cmp p key value).1
        (Op.insert key value :: hist) hs1 (by omega) (by omega)
        (by rw [BPlusTreeLeafPage.Insert_max_size]; exact hmax) habs1 hrest
      exact ⟨p1, hrun, hres⟩
    | remove key =>
      obtain ⟨p1, n, hrem, hs1, h01, hle, hmax1, habs1⟩ :=
        BPlusTreeLeafPage.RemoveAndDeleteRecord_refines hc p hist key fuel hs h0
          (by omega) habs
      have happ : applyOp cmp fuel p (Op.remove key) = some p1 := by
        simp only [applyOp, hrem, Option.map_some']
      rw [happ] at hrest
      obtain ⟨p2, hrun, hres⟩ := ih p1 (Op.remove key :: hist) hs1 h01 (by omega)
        (by omega) habs1 hrest
      refine ⟨p2, ?_, hres⟩
      simp only [applyOps, happ, Option.some_bind]
      exact hrun

/-- C3.  The page behaves as a finite map.  Take a page freshly initialised by
`Init` and any finite sequence of `Insert` and `RemoveByKey` calls in which no
`Insert` uses a key that is present in the page at that moment and no `Insert`
takes the size above `maxSize`.  With fuel above `maxSize` the run returns, and
on the resulting page `Lookup(k)` returns, for every key `k`, the locator of
the last `Insert` of `k` if no `RemoveByKey(k)` followed it, and "absent"
otherwise. -/
theorem Lookup_after_calls_is_finite_map {K V : Type} {cmp : K → K → Int}
    (hc : StrictWeakComparator cmp) (raw : BPlusTreeLeafPage K V)
    (page_id parent_id max_size : Int) (ops : List (Op K V)) (fuel : Nat)
    (hfuel : max_size.toNat < fuel)
    (hadm : Admissible cmp fuel (raw.Init page_id parent_id max_size) ops) :
    ∃ p, applyOps cmp fuel (raw.Init page_id parent_id max_size) ops = some p ∧
      p.size_ ≤ max max_size 0 ∧
      ∀ k, BPlusTreeLeafPage.Lookup cmp p k fuel = some (expectedLookup cmp k ops.reverse) := by
  have hinit : (raw.Init page_id parent_id max_size).entries = [] := rfl
  obtain ⟨p, hrun, hs, h0, hM, habs⟩ := applyOps_refines hc fuel (max_size.toNat : Int)
    (by omega) ops (raw.Init page_id parent_id max_size) []
    (by unfold BPlusTreeLeafPage.StrictlyAscending; rw [hinit]; trivial)
    (le_refl 0) (by show (0 : Int) ≤ _; omega)
    (by show max_size ≤ _; omega)
    (by
      intro k v
      rw [hinit]
      simp [expectedLookup])
    hadm
  rw [List.append_nil] at habs
  refine ⟨p, hrun, by omega, fun k => ?_⟩
  rcases BPlusTreeLeafPage.Lookup_cases hc p k fuel hs (by omega) with
    ⟨m, hm0, hm1, hk, hres⟩ | ⟨hno, hres⟩
  · rw [hres]
    congr 1
    exact ((habs k _).mp
      ⟨_, (BPlusTreeLeafPage.mem_entries p _).mpr ⟨m, hm0, hm1, rfl⟩, hk, rfl⟩).symm
  · rw [hres]
    congr 1
    cases hexp : expectedLookup cmp k ops.reverse with
    | none => rfl
    | some v =>
      obtain ⟨e, he, hke, _⟩ := (habs k v).mpr hexp
      obtain ⟨j, hj0, hj1, rfl⟩ := (BPlusTreeLeafPage.mem_entries p _).mp he
      exact absurd hke (hno j hj0 hj1)

/-- The hypotheses and the conclusion of C3 on an empty leaf with capacity 4 and
the calls insert `(5,A)`, `(1,B)`, `(3,C)`, remove 3: afterwards key 1 is found
with locator `B` and key 3 is absent. -/
theorem Lookup_after_calls_is_finite_map_witness :
    (4 : Int).toNat < 5 ∧ Admissible intCmp 5 (emptyPage4.Init 0 INVALID_PAGE_ID 4) scenarioOps ∧
    (applyOps intCmp 5 (emptyPage4.Init 0 INVALID_PAGE_ID 4) scenarioOps).bind
      (fun p => BPlusTreeLeafPage.Lookup intCmp p 1 5) = some (some 'B') ∧
    (applyOps intCmp 5 (emptyPage4.Init 0 INVALID_PAGE_ID 4) scenarioOps).bind
      (fun p => BPlusTreeLeafPage.Lookup intCmp p 3 5) = some none ∧
    ∃ p, applyOps intCmp 5 (emptyPage4.Init 0 INVALID_PAGE_ID 4) scenarioOps = some p ∧
      p.size_ ≤ max 4 0 ∧
      ∀ k, BPlusTreeLeafPage.Lookup intCmp p k 5
        = some (expectedLookup intCmp k scenarioOps.reverse) :=
  ⟨by decide, by decide, by decide, by decide,
    Lookup_after_calls_is_finite_map intCmp_strictWeak emptyPage4 0 INVALID_PAGE_ID 4
      scenarioOps 5 (by decide) (by decide)⟩

namespace BPlusTreeLeafPage

variable {K V : Type} {cmp : K → K → Int}

/-- C14.  For every leaf page (size not negative, no sortedness assumed) and
every key, `KeyIndex` lies in `[0, size]`; when it is below `size` the key at it
is not below `key` (`cmp key k ≤ 0`, and so `cmp k key ≥ 0` for a strict weak
comparator); no earlier slot has such a key, so it is the smallest such index;
and it is `size` when no entry has such a key, in particular 0 on the empty
page. -/
theorem KeyIndex_is_lower_bound (cmp : K → K → Int) (p : BPlusTreeLeafPage K V) (key : K)
    (h0 : 0 ≤ p.size_) :
    0 ≤ KeyIndex cmp p key ∧ KeyIndex cmp p key ≤ p.size_ ∧
    (KeyIndex cmp p key < p.size_ → cmp key (p.KeyAt (KeyIndex cmp p key)) ≤ 0) ∧
    (StrictWeakComparator cmp → KeyIndex cmp p key < p.size_ →
      0 ≤ cmp (p.KeyAt (KeyIndex cmp p key)) key) ∧
    (∀ j, 0 ≤ j → j < KeyIndex cmp p key → ¬ cmp key (p.KeyAt j) ≤ 0) ∧
    (∀ j, 0 ≤ j → j < p.size_ → cmp key (p.KeyAt j) ≤ 0 →
      KeyIndex cmp p key ≤ j ∧ KeyIndex cmp p key < p.size_) ∧
    ((∀ j, 0 ≤ j → j < p.size_ → ¬ cmp key (p.KeyAt j) ≤ 0) → KeyIndex cmp p key = p.size_) ∧
    (p.size_ = 0 → KeyIndex cmp p key = 0) := by
  obtain ⟨hi0, hi1, hbelow, hat⟩ := KeyIndex_spec cmp p key h0
  refine ⟨hi0, hi1, hat, ?_, ?_, ?_, ?_, ?_⟩
  · intro hc hlt
    have h1 := hat hlt
    have h2 := hc.antisymm (p.KeyAt (KeyIndex cmp p key)) key
    by_contra hneg
    have := h2.mp (by omega)
    omega
  · intro j hj0 hj1 hle
    have := hbelow j hj0 hj1
    omega
  · intro j hj0 hj1 hle
    have hij : KeyIndex cmp p key ≤ j := by
      by_contra hcon
      have := hbelow j hj0 (by omega)
      omega
    exact ⟨hij, by omega⟩
  · intro hnone
    by_contra hne
    have hlt : KeyIndex cmp p key < p.size_ := by omega
    exact hnone _ hi0 hlt (hat hlt)
  · intro hz
    omega

end BPlusTreeLeafPage

/-- The hypothesis and the conclusion of C14 on `[(1,B),(3,C),(5,A)]`: the
lower bound of 4 is index 2, of 6 it is the size 3, and on the empty page it
is 0. -/
theorem KeyIndex_is_lower_bound_witness :
    (0 : Int) ≤ page135.size_ ∧
    BPlusTreeLeafPage.KeyIndex intCmp page135 4 = 2 ∧
    BPlusTreeLeafPage.KeyIndex intCmp page135 6 = 3 ∧
    BPlusTreeLeafPage.KeyIndex intCmp emptyPage4 6 = 0 ∧
    (0 ≤ BPlusTreeLeafPage.KeyIndex intCmp page135 4 ∧
      BPlusTreeLeafPage.KeyIndex intCmp page135 4 ≤ page135.size_ ∧
      (BPlusTreeLeafPage.KeyIndex intCmp page135 4 < page135.size_ →
        intCmp 4 (page135.KeyAt (BPlusTreeLeafPage.KeyIndex intCmp page135 4)) ≤ 0) ∧
      (StrictWeakComparator intCmp →
        BPlusTreeLeafPage.KeyIndex intCmp page135 4 < page135.size_ →
        0 ≤ intCmp (page135.KeyAt (BPlusTreeLeafPage.KeyIndex intCmp page135 4)) 4) ∧
      (∀ j, 0 ≤ j → j < BPlusTreeLeafPage.KeyIndex intCmp page135 4 →
        ¬ intCmp 4 (page135.KeyAt j) ≤ 0) ∧
      (∀ j, 0 ≤ j → j < page135.size_ → intCmp 4 (page135.KeyAt j) ≤ 0 →
        BPlusTreeLeafPage.KeyIndex intCmp page135 4 ≤ j ∧
        BPlusTreeLeafPage.KeyIndex intCmp page135 4 < page135.size_) ∧
      ((∀ j, 0 ≤ j → j < page135.size_ → ¬ intCmp 4 (page135.KeyAt j) ≤ 0) →
        BPlusTreeLeafPage.KeyIndex intCmp page135 4 = page135.size_) ∧
      (page135.size_ = 0 → BPlusTreeLeafPage.KeyIndex intCmp page135 4 = 0)) :=
  ⟨by decide, by decide, by decide, by decide,
    BPlusTreeLeafPage.KeyIndex_is_lower_bound intCmp page135 4 (by decide)⟩

namespace BPlusTreeLeafPage

variable {K V : Type} {cmp : K → K → Int}

/-- On a strictly ascending page, a slot whose key compares equal to `key` is the
slot that `KeyIndex` returns. -/
theorem KeyIndex_eq_of_match (hc : StrictWeakComparator cmp) (p : BPlusTreeLeafPage K V)
    (key : K) (hs : StrictlyAscending cmp p) (m : Int) (hm0 : 0 ≤ m) (hm1 : m < p.size_)
    (hk : cmp key (p.KeyAt m) = 0) : KeyIndex cmp p key = m := by
  obtain ⟨hi0, hi1, hbelow, hat⟩ := KeyIndex_spec cmp p key (by omega)
  have hle : KeyIndex cmp p key ≤ m := by
    by_contra hcon
    have := hbelow m hm0 (by omega)
    omega
  by_contra hne
  have hlt : KeyIndex cmp p key < m := by omega
  have h1 := ascending_index hc hs _ m hi0 hlt hm1
  have h2 := hc.lt_of_lt_of_eq h1 (hc.eq_symm hk)
  have h3 := (hc.antisymm _ _).mp h2
  have h4 := hat (by omega)
  omega

/-- C18.  On a page with strictly ascending entries, `Lookup` (with fuel above
the size) returns, and it reports "found" if and only if `i = KeyIndex(key)`
satisfies `i < size` and `KeyAt(i)` compares equal to `key`; in that case the
locator it returns is the one stored at index `i`. -/
theorem Lookup_agrees_with_KeyIndex (hc : StrictWeakComparator cmp)
    (p : BPlusTreeLeafPage K V) (key : K) (fuel : Nat) (hs : StrictlyAscending cmp p)
    (hfuel : p.size_.toNat < fuel) :
    ∃ r, Lookup cmp p key fuel = some r ∧
      (r.isSome = true ↔
        (KeyIndex cmp p key < p.size_ ∧ cmp key (p.KeyAt (KeyIndex cmp p key)) = 0)) ∧
      (∀ v, r = some v → v = (p.array_ (KeyIndex cmp p key)).2) := by
  rcases Lookup_cases hc p key fuel hs hfuel with ⟨m, hm0, hm1, hk, hres⟩ | ⟨hno, hres⟩
  · have hidx := KeyIndex_eq_of_match hc p key hs m hm0 hm1 hk
    refine ⟨_, hres, ?_, ?_⟩
    · rw [hidx]
      exact ⟨fun _ => ⟨hm1, hk⟩, fun _ => rfl⟩
    · intro v hv
      rw [hidx]
      exact (Option.some.inj hv).symm
  · refine ⟨_, hres, ?_, ?_⟩
    · constructor
      · intro h
        exact absurd h (by simp)
      · rintro ⟨hlt, hk⟩
        exfalso
        by_cases h0 : 0 ≤ p.size_
        · obtain ⟨hi0, _, _, _⟩ := KeyIndex_spec cmp p key h0
          exact hno _ hi0 hlt hk
        · have hsz : p.size_.toNat = 0 := by omega
          have : KeyIndex cmp p key = p.size_ := by
            unfold KeyIndex GetSize
            rw [hsz]
            rfl
          omega
    · intro v hv
      exact Option.noConfusion hv

/-- C19.  On a page (size not negative) with strictly ascending entries and
`size < maxSize`, for a key that is not present and any locator, `Insert`
followed by `RemoveAndDeleteRecord` of the same key (with fuel above the size
after the insert) returns; the page then has the same size and the same entries
at the indices `0 .. size-1` as before the `Insert`, and the returned value is
the original size. -/
theorem RemoveAndDeleteRecord_undoes_Insert (hc : StrictWeakComparator cmp)
    (p : BPlusTreeLeafPage K V) (key : K) (value : V) (fuel : Nat)
    (hs : StrictlyAscending cmp p) (h0 : 0 ≤ p.size_) (hcap : p.size_ < p.max_size_)
    (hnew : ∀ e ∈ p.entries, cmp key e.1 ≠ 0) (hfuel : (p.size_ + 1).toNat < fuel) :
    ∃ p1 n, RemoveAndDeleteRecord cmp (Insert cmp p key value).1 key fuel = some (p1, n) ∧
      p1.size_ = p.size_ ∧ p1.size_ ≤ p1.max_size_ ∧ p1.entries = p.entries ∧
      (∀ j, 0 ≤ j → j < p.size_ → p1.array_ j = p.array_ j) ∧ n = p.size_ := by
  obtain ⟨hi0, hi1, _, _⟩ := KeyIndex_spec cmp p key h0
  obtain ⟨hsize, _, harr⟩ := Insert_array hc p key value hs h0 hnew
  have hs1 := Insert_ascending hc p key value hs h0 hnew
  have hat : (Insert cmp p key value).1.array_ (KeyIndex cmp p key) = (key, value) := by
    rw [harr _ hi0 hi1, if_neg (by omega), if_pos rfl]
  have hk : cmp key ((Insert cmp p key value).1.KeyAt (KeyIndex cmp p key)) = 0 := by
    unfold KeyAt
    rw [hat]
    exact hc.cmp_self key
  have hrem := RemoveAndDeleteRecord_found hc (Insert cmp p key value).1 key fuel hs1
    (by rw [hsize]; exact hfuel) (KeyIndex cmp p key) hi0 (by rw [hsize]; omega) hk
  have hslot : ∀ j, 0 ≤ j → j < p.size_ →
      ((Insert cmp p key value).1.removeAt (KeyIndex cmp p key)).array_ j = p.array_ j := by
    intro j hj0 hj1
    rw [removeAt_array, hsize]
    by_cases hij : KeyIndex cmp p key ≤ j
    · rw [if_pos ⟨hij, by omega⟩, harr _ (by omega) (by omega), if_neg (by omega),
        if_neg (by omega)]
      congr 1
      omega
    · rw [if_neg (by omega), harr _ hj0 (by omega), if_pos (by omega)]
  have hsz1 : ((Insert cmp p key value).1.removeAt (KeyIndex cmp p key)).size_ = p.size_ := by
    show (Insert cmp p key value).1.size_ + -1 = p.size_
    rw [hsize]
    omega
  have hmax1 : ((Insert cmp p key value).1.removeAt (KeyIndex cmp p key)).max_size_
      = p.max_size_ := by
    show (Insert cmp p key value).1.max_size_ = p.max_size_
    unfold Insert
    split_ifs <;> rfl
  refine ⟨_, _, hrem, hsz1, by rw [hsz1, hmax1]; omega, ?_, hslot, by rw [hsize]; omega⟩
  unfold entries
  rw [hsz1]
  apply slots_congr
  intro i hi
  exact hslot i (by omega) (by omega)

end BPlusTreeLeafPage

/-- The hypotheses and the conclusion of C18 on `[(1,B),(3,C),(5,A)]` and key 3:
the lookup finds `C`, and `KeyIndex` gives index 1, where key 3 and `C` are
stored. -/
theorem Lookup_agrees_with_KeyIndex_witness :
    BPlusTreeLeafPage.StrictlyAscending intCmp page135 ∧ page135.size_.toNat < 4 ∧
    BPlusTreeLeafPage.Lookup intCmp page135 3 4 = some (some 'C') ∧
    BPlusTreeLeafPage.KeyIndex intCmp page135 3 = 1 ∧ page135.array_ 1 = (3, 'C') ∧
    ∃ r, BPlusTreeLeafPage.Lookup intCmp page135 3 4 = some r ∧
      (r.isSome = true ↔
        (BPlusTreeLeafPage.KeyIndex intCmp page135 3 < page135.size_ ∧
          intCmp 3 (page135.KeyAt (BPlusTreeLeafPage.KeyIndex intCmp page135 3)) = 0)) ∧
      (∀ v, r = some v → v = (page135.array_ (BPlusTreeLeafPage.KeyIndex intCmp page135 3)).2) :=
  ⟨by decide, by decide, by decide, by decide, by decide,
    BPlusTreeLeafPage.Lookup_agrees_with_KeyIndex intCmp_strictWeak page135 3 4
      (by decide) (by decide)⟩

/-- The hypotheses and the conclusion of C19 on `[(1,B),(5,A)]`, key 3 and
locator `C`: after the insert and the removal the entries are `[(1,B),(5,A)]`
again and 2 is returned. -/
theorem RemoveAndDeleteRecord_undoes_Insert_witness :
    BPlusTreeLeafPage.StrictlyAscending intCmp page15 ∧ (0 : Int) ≤ page15.size_ ∧
    page15.size_ < page15.max_size_ ∧ (∀ e ∈ page15.entries, intCmp 3 e.1 ≠ 0) ∧
    (page15.size_ + 1).toNat < 4 ∧
    (BPlusTreeLeafPage.RemoveAndDeleteRecord intCmp
        (BPlusTreeLeafPage.Insert intCmp page15 3 'C').1 3 4).map
      (fun r => (r.1.entries, r.2)) = some ([(1, 'B'), (5, 'A')], 2) ∧
    ∃ p1 n, BPlusTreeLeafPage.RemoveAndDeleteRecord intCmp
        (BPlusTreeLeafPage.Insert intCmp page15 3 'C').1 3 4 = some (p1, n) ∧
      p1.size_ = page15.size_ ∧ p1.size_ ≤ p1.max_size_ ∧ p1.entries = page15.entries ∧
      (∀ j, 0 ≤ j → j < page15.size_ → p1.array_ j = page15.array_ j) ∧ n = page15.size_ :=
  ⟨by decide, by decide, by decide, by decide, by decide, by decide,
    BPlusTreeLeafPage.RemoveAndDeleteRecord_undoes_Insert intCmp_strictWeak page15 3 'C' 4
      (by decide) (by decide) (by decide) (by decide) (by decide)⟩

namespace BPlusTreeLeafPage

variable {K V : Type} {cmp : K → K → Int}

/-- A call of `CopyNFrom` on a page that is not a leaf page or lacks the room
fails its assertion and leaves the page as it was. -/
theorem CopyNFrom_assertFailed (p : BPlusTreeLeafPage K V) (items : Int → K × V) (size : Int)
    (h : ¬ (p.IsLeafPage = true ∧ p.size_ + size ≤ p.max_size_)) :
    p.CopyNFrom items size = Outcome.assertFailed p := by
  unfold CopyNFrom
  simp only [GetSize, GetMaxSize]
  rw [if_neg h]

/-- C13.  For every page (size not negative) and every item sequence of length
`n ≥ 0`, `CopyNFrom` completes exactly when the page is a leaf page and
`size + n ≤ maxSize`; then the entries are the old entries followed by the `n`
items in order and the size has grown by `n`; otherwise it fails its assertion
with the page unchanged.  Consequently `MoveHalfTo` (transfer count `t`) and
`MoveAllTo` fail the assertion with both pages unchanged when the page, as
their recipient, lacks the room. -/
theorem CopyNFrom_completes_iff_room (p : BPlusTreeLeafPage K V) (items : Int → K × V)
    (n : Int) (hn : 0 ≤ n) (h0 : 0 ≤ p.size_) :
    ((∃ p1, p.CopyNFrom items n = Outcome.completed p1)
      ↔ (p.IsLeafPage = true ∧ p.size_ + n ≤ p.max_size_)) ∧
    (∀ p1, p.CopyNFrom items n = Outcome.completed p1 →
      p1.entries = p.entries ++ slots items n.toNat ∧ p1.size_ = p.size_ + n) ∧
    (¬ (p.IsLeafPage = true ∧ p.size_ + n ≤ p.max_size_) →
      p.CopyNFrom items n = Outcome.assertFailed p) ∧
    (∀ (this : BPlusTreeLeafPage K V) (mark t : Int),
      (if mark = 0 then this.size_ ≤ 2 * t ∧ 2 * t ≤ this.size_ + 1
        else 2 * t ≤ this.size_ ∧ this.size_ ≤ 2 * t + 1) →
      p.max_size_ < p.size_ + t →
      MoveHalfTo this p mark = Outcome.assertFailed (this, p)) ∧
    (∀ (this : BPlusTreeLeafPage K V) (middle_key : K),
      p.max_size_ < p.size_ + this.size_ →
      MoveAllTo this p middle_key = Outcome.assertFailed (this, p)) := by
  have hfail := CopyNFrom_assertFailed p items n
  refine ⟨?_, ?_, hfail, ?_, ?_⟩
  · constructor
    · rintro ⟨p1, hp1⟩
      by_contra hcon
      rw [hfail hcon] at hp1
      exact Outcome.noConfusion hp1
    · rintro ⟨hleaf, hroom⟩
      obtain ⟨p1, hp1, _⟩ := CopyNFrom_completed p items n hleaf h0 hn hroom
      exact ⟨p1, hp1⟩
  · intro p1 hp1
    by_cases hcond : p.IsLeafPage = true ∧ p.size_ + n ≤ p.max_size_
    · obtain ⟨p2, hp2, hent, hsz, _, _⟩ :=
        CopyNFrom_completed p items n hcond.1 h0 hn hcond.2
      rw [hp2] at hp1
      have := Outcome.completed.inj hp1
      subst this
      exact ⟨hent, hsz⟩
    · rw [hfail hcond] at hp1
      exact Outcome.noConfusion hp1
  · intro this mark t ht hroom
    unfold MoveHalfTo
    by_cases hpos : this.GetSize > 0
    · rw [if_pos hpos]
      have hhalf := half_eq this.size_ mark t (by unfold GetSize at hpos; omega) ht
      simp only [GetSize] at hhalf ⊢
      rw [hhalf, CopyNFrom_assertFailed p _ t (by omega)]
    · rw [if_neg hpos]
  · intro this middle_key hroom
    unfold MoveAllTo
    simp only [GetSize]
    rw [CopyNFrom_assertFailed p _ this.size_ (by omega)]

/-- C15.  Whenever `MoveHalfTo` completes, the next page id, the parent id, the
page id, the capacity and the page type of `this` and of the recipient are the
same as before, the array of `this` is untouched (so its first
`size(this)_after` entries are), and the slots of the recipient below its old
size are untouched: only the two sizes and the recipient's slots from its old
size on have changed. -/
theorem MoveHalfTo_frame (this recipient t1 r1 : BPlusTreeLeafPage K V) (mark : Int)
    (h : MoveHalfTo this recipient mark = Outcome.completed (t1, r1)) :
    t1.next_page_id_ = this.next_page_id_ ∧ t1.parent_page_id_ = this.parent_page_id_ ∧
    t1.page_id_ = this.page_id_ ∧ t1.max_size_ = this.max_size_ ∧
    t1.page_type_ = this.page_type_ ∧
    r1.next_page_id_ = recipient.next_page_id_ ∧
    r1.parent_page_id_ = recipient.parent_page_id_ ∧
    r1.page_id_ = recipient.page_id_ ∧ r1.max_size_ = recipient.max_size_ ∧
    r1.page_type_ = recipient.page_type_ ∧
    t1.array_ = this.array_ ∧
    (∀ j, 0 ≤ j → j < t1.size_ → t1.array_ j = this.array_ j) ∧
    t1.entries = this.entries.take t1.size_.toNat ∧
    (∀ j, j < recipient.size_ → r1.array_ j = recipient.array_ j) := by
  unfold MoveHalfTo at h
  by_cases hpos : this.GetSize > 0
  · rw [if_pos hpos] at h
    simp only at h
    generalize hhalf : (if mark = 0 then (this.GetSize + 1).tdiv 2 else this.GetSize.tdiv 2)
      = half at h
    have hhalf0 : 0 ≤ half := by
      unfold GetSize at hpos hhalf
      rw [Int.tdiv_eq_ediv (by omega) (by norm_num),
        Int.tdiv_eq_ediv (by omega) (by norm_num)] at hhalf
      split_ifs at hhalf <;> omega
    by_cases hcond : recipient.IsLeafPage = true ∧ recipient.GetSize + half ≤ recipient.GetMaxSize
    · unfold CopyNFrom at h
      rw [if_pos hcond] at h
      have heq := Outcome.completed.inj h
      have e1 : t1 = this.IncreaseSize (-1 * half) := (congrArg Prod.fst heq).symm
      have e2 := (congrArg Prod.snd heq).symm
      simp only at e2
      subst e1 e2
      refine ⟨rfl, rfl, rfl, rfl, rfl, rfl, rfl, rfl, rfl, rfl, rfl, fun _ _ _ => rfl, ?_, ?_⟩
      · simp only [entries, IncreaseSize]
        rw [slots_take]
        congr 1
        omega
      · intro j hj
        simp only [IncreaseSize, GetSize]
        rw [CopyNFrom_loop_eq]
        beta_reduce
        rw [if_neg (by omega)]
    · unfold CopyNFrom at h
      rw [if_neg hcond] at h
      exact Outcome.noConfusion h
  · rw [if_neg hpos] at h
    exact Outcome.noConfusion h

end BPlusTreeLeafPage

/-- The hypotheses and the conclusion of C13 on a full page (`[(1,a),…,(4,d)]`,
capacity 4) with one more item: the assertion fails and the page is as before;
with no item the call completes. -/
theorem CopyNFrom_completes_iff_room_witness :
    (0 : Int) ≤ 1 ∧ (0 : Int) ≤ page1234.size_ ∧
    ¬ (page1234.IsLeafPage = true ∧ page1234.size_ + 1 ≤ page1234.max_size_) ∧
    page1234.CopyNFrom (fun _ => (9, 'q')) 1 = Outcome.assertFailed page1234 ∧
    BPlusTreeLeafPage.MoveAllTo page7 page1234 0 = Outcome.assertFailed (page7, page1234) ∧
    BPlusTreeLeafPage.MoveHalfTo page135 page1234 0
      = Outcome.assertFailed (page135, page1234) :=
  have h := BPlusTreeLeafPage.CopyNFrom_completes_iff_room page1234 (fun _ => (9, 'q')) 1
    (by decide) (by decide)
  ⟨by decide, by decide, by decide, h.2.2.1 (by decide),
    h.2.2.2.2 page7 0 (by decide), h.2.2.2.1 page135 0 2 (by decide) (by decide)⟩

/-- The hypothesis and the conclusion of C15 in the split scenario of the spec
(`[(1,a),(2,b),(3,c),(4,d)]`, rounding down, empty recipient). -/
theorem MoveHalfTo_frame_witness :
    BPlusTreeLeafPage.MoveHalfTo page1234 emptyPage4 1
      = Outcome.completed ((BPlusTreeLeafPage.MoveHalfTo page1234 emptyPage4 1).state.1,
          (BPlusTreeLeafPage.MoveHalfTo page1234 emptyPage4 1).state.2) ∧
    (BPlusTreeLeafPage.MoveHalfTo page1234 emptyPage4 1).state.1.next_page_id_
      = page1234.next_page_id_ ∧
    (BPlusTreeLeafPage.MoveHalfTo page1234 emptyPage4 1).state.1.max_size_
      = page1234.max_size_ ∧
    (BPlusTreeLeafPage.MoveHalfTo page1234 emptyPage4 1).state.2.next_page_id_
      = emptyPage4.next_page_id_ ∧
    (BPlusTreeLeafPage.MoveHalfTo page1234 emptyPage4 1).state.1.array_ = page1234.array_ :=
  have h := BPlusTreeLeafPage.MoveHalfTo_frame page1234 emptyPage4
    (BPlusTreeLeafPage.MoveHalfTo page1234 emptyPage4 1).state.1
    (BPlusTreeLeafPage.MoveHalfTo page1234 emptyPage4 1).state.2 1 rfl
  ⟨rfl, h.1, h.2.2.2.1, h.2.2.2.2.2.1, h.2.2.2.2.2.2.2.2.2.2.1⟩

namespace BPlusTreeLeafPage

variable {K V : Type} {cmp : K → K → Int}

/-- With enough fuel the search returns, on any page, and an index it returns
lies between `low` and `high`. -/
theorem searchIndex_returns (cmp : K → K → Int) (p : BPlusTreeLeafPage K V) (key : K) :
    ∀ (fuel : Nat) (low high : Int), (high + 1 - low).toNat < fuel →
      ∃ r, searchIndex cmp p key fuel low high = some r ∧
        ∀ m, r = some m → low ≤ m ∧ m ≤ high := by
  intro fuel
  induction fuel with
  | zero => intro low high h; omega
  | succ n ih =>
    intro low high hf
    unfold searchIndex
    by_cases hlh : low ≤ high
    · have hm := mid_bounds low high hlh
      simp only [hlh, if_true]
      by_cases hg : cmp key (p.KeyAt (low + (high - low).tdiv 2)) > 0
      · simp only [hg, if_true]
        obtain ⟨r, hr, hb⟩ := ih (low + (high - low).tdiv 2 + 1) high (by omega)
        exact ⟨r, hr, fun m hmr => ⟨by have := hb m hmr; omega, (hb m hmr).2⟩⟩
      · by_cases hl : cmp key (p.KeyAt (low + (high - low).tdiv 2)) < 0
        · simp only [hg, hl, if_true, if_false]
          obtain ⟨r, hr, hb⟩ := ih low (low + (high - low).tdiv 2 - 1) (by omega)
          exact ⟨r, hr, fun m hmr => ⟨(hb m hmr).1, by have := hb m hmr; omega⟩⟩
        · simp only [hg, hl, if_false]
          refine ⟨_, rfl, fun m hmr => ?_⟩
          have := Option.some.inj hmr
          omega
    · simp only [hlh, if_false]
      exact ⟨none, rfl, fun m hmr => Option.noConfusion hmr⟩

/-- On any page `RemoveAndDeleteRecord` returns (with fuel above the size); the
size stays, or drops by one from a size of at least one; the capacity stays. -/
theorem RemoveAndDeleteRecord_size (cmp : K → K → Int) (p : BPlusTreeLeafPage K V) (key : K)
    (fuel : Nat) (hfuel : p.size_.toNat < fuel) :
    ∃ p1 n, RemoveAndDeleteRecord cmp p key fuel = some (p1, n) ∧ n = p1.size_ ∧
      p1.max_size_ = p.max_size_ ∧
      (p1.size_ = p.size_ ∨ (1 ≤ p.size_ ∧ p1.size_ = p.size_ - 1)) := by
  unfold RemoveAndDeleteRecord
  split_ifs with hg
  · exact ⟨p, p.size_, rfl, rfl, rfl, Or.inl rfl⟩
  · obtain ⟨r, hr, hb⟩ := searchIndex_returns cmp p key fuel 0 (p.GetSize - 1)
      (by unfold GetSize; omega)
    rw [RemoveAndDeleteRecord_loop_eq_searchIndex, hr]
    cases r with
    | none => exact ⟨p, p.size_, rfl, rfl, rfl, Or.inl rfl⟩
    | some m =>
      have hm := hb m rfl
      unfold GetSize at hm
      refine ⟨p.removeAt m, (p.removeAt m).size_, rfl, rfl, rfl, Or.inr ⟨by omega, ?_⟩⟩
      show p.size_ + -1 = p.size_ - 1
      omega

theorem Insert_size (cmp : K → K → Int) (p : BPlusTreeLeafPage K V) (key : K) (value : V) :
    (Insert cmp p key value).1.size_ = p.size_ + 1 := by
  unfold Insert
  split_ifs <;> rfl

/-- The sizes and capacities after a completed `MoveHalfTo`. -/
theorem MoveHalfTo_sizes (this recipient t1 r1 : BPlusTreeLeafPage K V) (mark : Int)
    (h : MoveHalfTo this recipient mark = Outcome.completed (t1, r1)) :
    ∃ half, 0 ≤ half ∧ half ≤ this.size_ ∧ t1.size_ = this.size_ - half ∧
      r1.size_ = recipient.size_ + half ∧ r1.size_ ≤ recipient.max_size_ ∧
      t1.max_size_ = this.max_size_ ∧ r1.max_size_ = recipient.max_size_ := by
  unfold MoveHalfTo at h
  by_cases hpos : this.GetSize > 0
  · rw [if_pos hpos] at h
    simp only at h
    generalize hhalf : (if mark = 0 then (this.GetSize + 1).tdiv 2 else this.GetSize.tdiv 2)
      = half at h
    have hhalf0 : 0 ≤ half ∧ half ≤ this.size_ := by
      unfold GetSize at hpos hhalf
      rw [Int.tdiv_eq_ediv (by omega) (by norm_num),
        Int.tdiv_eq_ediv (by omega) (by norm_num)] at hhalf
      split_ifs at hhalf <;> omega
    by_cases hcond : recipient.IsLeafPage = true ∧ recipient.GetSize + half ≤ recipient.GetMaxSize
    · unfold CopyNFrom at h
      rw [if_pos hcond] at h
      have heq := Outcome.completed.inj h
      have e1 : t1 = this.IncreaseSize (-1 * half) := (congrArg Prod.fst heq).symm
      have e2 := (congrArg Prod.snd heq).symm
      simp only at e2
      subst e1 e2
      refine ⟨half, hhalf0.1, hhalf0.2, ?_, rfl, hcond.2, rfl, rfl⟩
      show this.size_ + -1 * half = this.size_ - half
      omega
    · unfold CopyNFrom at h
      rw [if_neg hcond] at h
      exact Outcome.noConfusion h
  · rw [if_neg hpos] at h
    exact Outcome.noConfusion h

/-- The sizes and capacities after a completed `MoveAllTo`. -/
theorem MoveAllTo_sizes (this recipient t1 r1 : BPlusTreeLeafPage K V) (middle_key : K)
    (h : MoveAllTo this recipient middle_key = Outcome.completed (t1, r1)) :
    t1.size_ = 0 ∧ r1.size_ = recipient.size_ + this.size_ ∧
      r1.size_ ≤ recipient.max_size_ ∧
      t1.max_size_ = this.max_size_ ∧ r1.max_size_ = recipient.max_size_ := by
  unfold MoveAllTo at h
  by_cases hcond : recipient.IsLeafPage = true ∧
      recipient.GetSize + this.GetSize ≤ recipient.GetMaxSize
  · unfold CopyNFrom at h
    rw [if_pos hcond] at h
    have heq := Outcome.completed.inj h
    have e1 := (congrArg Prod.fst heq).symm
    have e2 := (congrArg Prod.snd heq).symm
    simp only at e1 e2
    subst e1 e2
    refine ⟨?_, rfl, hcond.2, rfl, rfl⟩
    show this.size_ + -1 * this.size_ = 0
    omega
  · unfold CopyNFrom at h
    rw [if_neg hcond] at h
    exact Outcome.noConfusion h

/-- The sizes and capacities after a completed `MoveFirstToEndOf`. -/
theorem MoveFirstToEndOf_sizes (this recipient t1 r1 : BPlusTreeLeafPage K V)
    (h : MoveFirstToEndOf this recipient = Outcome.completed (t1, r1)) :
    t1.size_ = this.size_ - 1 ∧ r1.size_ = recipient.size_ + 1 ∧
      r1.size_ ≤ recipient.max_size_ ∧
      t1.max_size_ = this.max_size_ ∧ r1.max_size_ = recipient.max_size_ := by
  unfold MoveFirstToEndOf CopyLastFrom at h
  by_cases hcond : recipient.GetSize + 1 ≤ recipient.GetMaxSize
  · simp only [if_pos hcond] at h
    have heq := Outcome.completed.inj h
    have e1 := (congrArg Prod.fst heq).symm
    have e2 := (congrArg Prod.snd heq).symm
    simp only at e1 e2
    subst e1 e2
    refine ⟨?_, rfl, hcond, rfl, rfl⟩
    show this.size_ + -1 = this.size_ - 1
    omega
  · simp only [if_neg hcond] at h
    exact Outcome.noConfusion h

/-- The sizes and capacities after a completed `MoveLastToFrontOf`. -/
theorem MoveLastToFrontOf_sizes (this recipient t1 r1 : BPlusTreeLeafPage K V)
    (h : MoveLastToFrontOf this recipient = Outcome.completed (t1, r1)) :
    t1.size_ = this.size_ - 1 ∧ r1.size_ = recipient.size_ + 1 ∧
      r1.size_ < recipient.max_size_ ∧
      t1.max_size_ = this.max_size_ ∧ r1.max_size_ = recipient.max_size_ := by
  unfold MoveLastToFrontOf CopyFirstFrom at h
  by_cases hcond : recipient.GetSize + 1 < recipient.GetMaxSize
  · simp only [if_pos hcond] at h
    have heq := Outcome.completed.inj h
    have e1 := (congrArg Prod.fst heq).symm
    have e2 := (congrArg Prod.snd heq).symm
    simp only at e1 e2
    subst e1 e2
    refine ⟨?_, rfl, hcond, rfl, rfl⟩
    show this.size_ + -1 = this.size_ - 1
    omega
  · simp only [if_neg hcond] at h
    exact Outcome.noConfusion h

end BPlusTreeLeafPage

/-- C11 as stated fails.  The empty page and the pages `[(0,z)]`, `[(7,x)]` (all
with capacity 4) satisfy `0 ≤ size ≤ maxSize`; `MoveFirstToEndOf` and
`MoveLastToFrontOf` on the empty `this` complete without a failed assertion and
leave `this` with size `-1`. -/
theorem size_invariant_fails_on_empty_this :
    (0 ≤ emptyPage4.size_ ∧ emptyPage4.size_ ≤ emptyPage4.max_size_) ∧
    (0 ≤ page0.size_ ∧ page0.size_ ≤ page0.max_size_) ∧
    (0 ≤ page7.size_ ∧ page7.size_ ≤ page7.max_size_) ∧
    (∃ t1 r1, BPlusTreeLeafPage.MoveFirstToEndOf emptyPage4 page0 = Outcome.completed (t1, r1) ∧
      t1.size_ = -1 ∧ ¬ (0 ≤ t1.size_ ∧ t1.size_ ≤ t1.max_size_)) ∧
    (∃ t1 r1, BPlusTreeLeafPage.MoveLastToFrontOf emptyPage4 page7 = Outcome.completed (t1, r1) ∧
      t1.size_ = -1 ∧ ¬ (0 ≤ t1.size_ ∧ t1.size_ ≤ t1.max_size_)) :=
  ⟨by decide, by decide, by decide,
    ⟨(BPlusTreeLeafPage.MoveFirstToEndOf emptyPage4 page0).state.1,
      (BPlusTreeLeafPage.MoveFirstToEndOf emptyPage4 page0).state.2, rfl, by decide, by decide⟩,
    ⟨(BPlusTreeLeafPage.MoveLastToFrontOf emptyPage4 page7).state.1,
      (BPlusTreeLeafPage.MoveLastToFrontOf emptyPage4 page7).state.2, rfl, by decide, by decide⟩⟩

/-- C11, amended.  Let `this` and the recipient satisfy `0 ≤ size ≤ maxSize`.
Then `RemoveAndDeleteRecord` (with fuel above the size) returns a page that
satisfies it; `MoveHalfTo` and `MoveAllTo`, whenever they complete, leave both
pages satisfying it; `MoveFirstToEndOf` and `MoveLastToFrontOf`, whenever they
complete on a `this` with size at least 1, leave both pages satisfying it; and
`Insert` called with `size < maxSize` leaves the page satisfying it. -/
theorem size_invariant_kept {K V : Type} (cmp : K → K → Int)
    (this recipient : BPlusTreeLeafPage K V) (key middle_key : K) (value : V) (mark : Int)
    (fuel : Nat) (hfuel : this.size_.toNat < fuel)
    (ht : 0 ≤ this.size_ ∧ this.size_ ≤ this.max_size_)
    (hr : 0 ≤ recipient.size_ ∧ recipient.size_ ≤ recipient.max_size_) :
    (∃ p1 n, BPlusTreeLeafPage.RemoveAndDeleteRecord cmp this key fuel = some (p1, n) ∧
      0 ≤ p1.size_ ∧ p1.size_ ≤ p1.max_size_) ∧
    (∀ t1 r1, BPlusTreeLeafPage.MoveHalfTo this recipient mark = Outcome.completed (t1, r1) →
      (0 ≤ t1.size_ ∧ t1.size_ ≤ t1.max_size_) ∧ (0 ≤ r1.size_ ∧ r1.size_ ≤ r1.max_size_)) ∧
    (∀ t1 r1, BPlusTreeLeafPage.MoveAllTo this recipient middle_key
        = Outcome.completed (t1, r1) →
      (0 ≤ t1.size_ ∧ t1.size_ ≤ t1.max_size_) ∧ (0 ≤ r1.size_ ∧ r1.size_ ≤ r1.max_size_)) ∧
    (1 ≤ this.size_ →
      ∀ t1 r1, BPlusTreeLeafPage.MoveFirstToEndOf this recipient = Outcome.completed (t1, r1) →
      (0 ≤ t1.size_ ∧ t1.size_ ≤ t1.max_size_) ∧ (0 ≤ r1.size_ ∧ r1.size_ ≤ r1.max_size_)) ∧
    (1 ≤ this.size_ →
      ∀ t1 r1, BPlusTreeLeafPage.MoveLastToFrontOf this recipient = Outcome.completed (t1, r1) →
      (0 ≤ t1.size_ ∧ t1.size_ ≤ t1.max_size_) ∧ (0 ≤ r1.size_ ∧ r1.size_ ≤ r1.max_size_)) ∧
    (this.size_ < this.max_size_ →
      0 ≤ (BPlusTreeLeafPage.Insert cmp this key value).1.size_ ∧
      (BPlusTreeLeafPage.Insert cmp this key value).1.size_
        ≤ (BPlusTreeLeafPage.Insert cmp this key value).1.max_size_) := by
  refine ⟨?_, ?_, ?_, ?_, ?_, ?_⟩
  · obtain ⟨p1, n, hres, _, hmax, hsz⟩ :=
      BPlusTreeLeafPage.RemoveAndDeleteRecord_size cmp this key fuel hfuel
    refine ⟨p1, n, hres, ?_, ?_⟩
    · rcases hsz with h | h <;> omega
    · rcases hsz with h | h <;> omega
  · intro t1 r1 h
    obtain ⟨half, h1, h2, h3, h4, h5, h6, h7⟩ :=
      BPlusTreeLeafPage.MoveHalfTo_sizes this recipient t1 r1 mark h
    exact ⟨⟨by omega, by omega⟩, ⟨by omega, by omega⟩⟩
  · intro t1 r1 h
    obtain ⟨h1, h2, h3, h4, h5⟩ :=
      BPlusTreeLeafPage.MoveAllTo_sizes this recipient t1 r1 middle_key h
    exact ⟨⟨by omega, by omega⟩, ⟨by omega, by omega⟩⟩
  · intro hn t1 r1 h
    obtain ⟨h1, h2, h3, h4, h5⟩ :=
      BPlusTreeLeafPage.MoveFirstToEndOf_sizes this recipient t1 r1 h
    exact ⟨⟨by omega, by omega⟩, ⟨by omega, by omega⟩⟩
  · intro hn t1 r1 h
    obtain ⟨h1, h2, h3, h4, h5⟩ :=
      BPlusTreeLeafPage.MoveLastToFrontOf_sizes this recipient t1 r1 h
    exact ⟨⟨by omega, by omega⟩, ⟨by omega, by omega⟩⟩
  · intro hcap
    rw [BPlusTreeLeafPage.Insert_size, BPlusTreeLeafPage.Insert_max_size]
    exact ⟨by omega, by omega⟩

/-- The hypotheses of the amended C11 on `this = [(1,B),(3,C),(5,A)]` and the
recipient `[(0,z)]`, and its conclusion for `MoveFirstToEndOf`, which completes
there and leaves the sizes 2 and 2. -/
theorem size_invariant_kept_witness :
    page135.size_.toNat < 4 ∧ (0 ≤ page135.size_ ∧ page135.size_ ≤ page135.max_size_) ∧
    (0 ≤ page0.size_ ∧ page0.size_ ≤ page0.max_size_) ∧ (1 : Int) ≤ page135.size_ ∧
    BPlusTreeLeafPage.MoveFirstToEndOf page135 page0
      = Outcome.completed ((BPlusTreeLeafPage.MoveFirstToEndOf page135 page0).state.1,
          (BPlusTreeLeafPage.MoveFirstToEndOf page135 page0).state.2) ∧
    ((0 ≤ (BPlusTreeLeafPage.MoveFirstToEndOf page135 page0).state.1.size_ ∧
        (BPlusTreeLeafPage.MoveFirstToEndOf page135 page0).state.1.size_
          ≤ (BPlusTreeLeafPage.MoveFirstToEndOf page135 page0).state.1.max_size_) ∧
      (0 ≤ (BPlusTreeLeafPage.MoveFirstToEndOf page135 page0).state.2.size_ ∧
        (BPlusTreeLeafPage.MoveFirstToEndOf page135 page0).state.2.size_
          ≤ (BPlusTreeLeafPage.MoveFirstToEndOf page135 page0).state.2.max_size_)) :=
  ⟨by decide, by decide, by decide, by decide, rfl,
    (size_invariant_kept intCmp page135 page0 3 0 'C' 0 4 (by decide) (by decide)
      (by decide)).2.2.2.1 (by decide) _ _ rfl⟩

/-- C12 at the failing input.  The page `[(1,B),(3,C),(5,A)]` has capacity 4, so
`size = maxSize - 1` and `size + 1 ≤ maxSize`.  `CopyLastFrom` completes on it
and fills it to exactly `maxSize`, but `CopyFirstFrom`, whose assertion is
`size + 1 < maxSize`, fails its assertion (leaving the page as it was). -/
theorem CopyFirstFrom_refuses_last_free_slot :
    page135.size_ = page135.max_size_ - 1 ∧ page135.size_ + 1 ≤ page135.max_size_ ∧
    page135.CopyFirstFrom (0, 'z') = Outcome.assertFailed page135 ∧
    page135.CopyLastFrom (7, 'x') = Outcome.completed (page135.CopyLastFrom (7, 'x')).state ∧
    (page135.CopyLastFrom (7, 'x')).state.size_ = page135.max_size_ ∧
    (page135.CopyLastFrom (7, 'x')).state.entries
      = [(1, 'B'), (3, 'C'), (5, 'A'), (7, 'x')] :=
  ⟨by decide, by decide, rfl, rfl, by decide, by decide⟩

/-- C17 at the failing input.  The page `[(1,B),(3,C),(5,A)]` is strictly
ascending with `size < maxSize`.  `Insert(1, Z)`, whose key equals the first
key, leaves `[(1,B),(1,B),(3,C),(5,A)]`: the pair `(1,Z)` is not among the
entries and `(1,B)` is there twice.  `Insert(3, Z)`, whose key equals a later
key, does insert the pair. -/
theorem Insert_equal_to_first_key_drops_pair :
    BPlusTreeLeafPage.StrictlyAscending intCmp page135 ∧ page135.size_ < page135.max_size_ ∧
    (BPlusTreeLeafPage.Insert intCmp page135 1 'Z').1.entries
      = [(1, 'B'), (1, 'B'), (3, 'C'), (5, 'A')] ∧
    (1, 'Z') ∉ (BPlusTreeLeafPage.Insert intCmp page135 1 'Z').1.entries ∧
    page135.entries.count (1, 'B') = 1 ∧
    (BPlusTreeLeafPage.Insert intCmp page135 1 'Z').1.entries.count (1, 'B') = 2 ∧
    (BPlusTreeLeafPage.Insert intCmp page135 1 'Z').1.size_ = 4 ∧
    (BPlusTreeLeafPage.Insert intCmp page135 3 'Z').1.entries
      = [(1, 'B'), (3, 'Z'), (3, 'C'), (5, 'A')] :=
  ⟨by decide, by decide, by decide, by decide, by decide, by decide, by decide, by decide⟩

/-- The `memmove` of the model changes no slot outside of its destination slots,
and the value of a destination slot comes from one of its source slots. -/
theorem memmove_footprint {α : Type} (a : Int → α) (dst src n j : Int) :
    (j ∉ memmoveWrites dst n → memmove a dst src n j = a j) ∧
    (j ∈ memmoveWrites dst n →
      memmove a dst src n j = a (src + (j - dst)) ∧ src + (j - dst) ∈ memmoveReads src n) := by
  have hmemw : j ∈ memmoveWrites dst n ↔ dst ≤ j ∧ j < dst + n := by
    unfold memmoveWrites
    simp only [List.mem_map, List.mem_range]
    constructor
    · rintro ⟨i, hi, rfl⟩
      omega
    · intro h
      exact ⟨(j - dst).toNat, by omega, by omega⟩
  constructor
  · intro hj
    unfold memmove
    rw [if_neg (fun h => hj (hmemw.mpr h))]
  · intro hj
    have h := hmemw.mp hj
    refine ⟨by unfold memmove; rw [if_pos h], ?_⟩
    unfold memmoveReads
    simp only [List.mem_map, List.mem_range]
    exact ⟨(j - dst).toNat, by omega, by omega⟩

/-- On every page with size at least 1, `MoveFirstToEndOf` reads the slot with
index `size`. -/
theorem MoveFirstToEndOf_reads_size {K V : Type} (this : BPlusTreeLeafPage K V)
    (hn : 1 ≤ this.size_) : this.size_ ∈ BPlusTreeLeafPage.MoveFirstToEndOf.reads this := by
  unfold BPlusTreeLeafPage.MoveFirstToEndOf.reads memmoveReads BPlusTreeLeafPage.GetSize
  simp only [List.mem_cons, List.mem_map, List.mem_range]
  right
  exact ⟨(this.size_ - 1).toNat, by omega, by omega⟩

/-- C20 at the failing input.  The page `[(1,a),(2,b),(3,c),(4,d)]` has
`size = maxSize = 4`.  `MoveFirstToEndOf` writes the slots 0 to 3 but reads the
slots 0 to 4: slot index `size`, one past the occupied part and past the
`maxSize`-slot array, is read. -/
theorem MoveFirstToEndOf_reads_past_occupied :
    (1 : Int) ≤ page1234.size_ ∧ page1234.size_ = page1234.max_size_ ∧
    BPlusTreeLeafPage.MoveFirstToEndOf.writes page1234 = [0, 1, 2, 3] ∧
    BPlusTreeLeafPage.MoveFirstToEndOf.reads page1234 = [0, 1, 2, 3, 4] ∧
    page1234.size_ ∈ BPlusTreeLeafPage.MoveFirstToEndOf.reads page1234 ∧
    ¬ (∀ j ∈ BPlusTreeLeafPage.MoveFirstToEndOf.reads page1234, 0 ≤ j ∧ j < page1234.size_) :=
  ⟨by decide, by decide, by decide, by decide, by decide, by decide⟩

theorem log_half_step (m n : Nat) (h1 : 1 ≤ m) (h2 : m ≤ n / 2) :
    Nat.log 2 m + 1 ≤ Nat.log 2 n := by
  have hmono : Nat.log 2 m ≤ Nat.log 2 (n / 2) := Nat.log_mono_right h2
  have hdiv : Nat.log 2 (n / 2) = Nat.log 2 n - 1 := Nat.log_div_base 2 n
  have hpos : 0 < Nat.log 2 n := Nat.log_pos (by norm_num) (by omega)
  omega

namespace BPlusTreeLeafPage

variable {K V : Type} {cmp : K → K → Int}

/-- The counted loop computes the result of the loop of `Lookup`. -/
theorem Lookup_loopCounted_fst (cmp : K → K → Int) (p : BPlusTreeLeafPage K V) (key : K) :
    ∀ (fuel : Nat) (low high : Int),
      (Lookup.loopCounted cmp p key fuel low high).map Prod.fst
        = Lookup.loop cmp p key fuel low high := by
  intro fuel
  induction fuel with
  | zero => intro low high; rfl
  | succ n ih =>
    intro low high
    unfold Lookup.loopCounted Lookup.loop
    simp only [← ih]
    split_ifs
    · rw [Option.map_map]; rfl
    · rw [Option.map_map]; rfl
    · rfl
    · rfl

/-- The counted `Lookup` computes the result of `Lookup`. -/
theorem LookupCounted_fst (cmp : K → K → Int) (p : BPlusTreeLeafPage K V) (key : K)
    (fuel : Nat) : (LookupCounted cmp p key fuel).map Prod.fst = Lookup cmp p key fuel := by
  unfold LookupCounted Lookup
  by_cases h1 : p.GetSize = 0
  · rw [if_pos h1, if_pos (Or.inl h1)]; rfl
  · by_cases h2 : cmp key (p.KeyAt 0) < 0
    · rw [if_neg h1, if_pos h2, if_pos (Or.inr (Or.inl h2))]; rfl
    · by_cases h3 : cmp key (p.KeyAt (p.GetSize - 1)) > 0
      · rw [if_neg h1, if_neg h2, if_pos h3, if_pos (Or.inr (Or.inr h3))]; rfl
      · rw [if_neg h1, if_neg h2, if_neg h3, if_neg (by tauto), Option.map_map,
          ← Lookup_loopCounted_fst]
        rfl

/-- The counted loop, on any page, returns with enough fuel and makes at most two
comparator calls per halving of the search range. -/
theorem Lookup_loopCounted_bound (cmp : K → K → Int) (p : BPlusTreeLeafPage K V) (key : K) :
    ∀ (fuel : Nat) (low high : Int), (high + 1 - low).toNat < fuel →
      ∃ r c, Lookup.loopCounted cmp p key fuel low high = some (r, c) ∧
        (high < low → c = 0) ∧
        (low ≤ high → c ≤ 2 * (Nat.log 2 (high + 1 - low).toNat + 1)) := by
  intro fuel
  induction fuel with
  | zero => intro low high h; omega
  | succ n ih =>
    intro low high hf
    unfold Lookup.loopCounted
    by_cases hlh : low ≤ high
    · have hm := mid_bounds low high hlh
      have hdiv : (high - low).tdiv 2 = (high - low) / 2 :=
        Int.tdiv_eq_ediv (by omega) (by norm_num)
      simp only [hlh, if_true]
      by_cases hg : cmp key (p.KeyAt (low + (high - low).tdiv 2)) > 0
      · simp only [hg, if_true]
        obtain ⟨r, c, hr, hc0, hc1⟩ := ih (low + (high - low).tdiv 2 + 1) high (by omega)
        rw [hr]
        refine ⟨r, c + 1, rfl, fun h => by omega, fun _ => ?_⟩
        by_cases hemp : high < low + (high - low).tdiv 2 + 1
        · have := hc0 hemp
          omega
        · have hstep := log_half_step (high + 1 - (low + (high - low).tdiv 2 + 1)).toNat
            (high + 1 - low).toNat (by omega) (by omega)
          have := hc1 (by omega)
          omega
      · by_cases hl : cmp key (p.KeyAt (low + (high - low).tdiv 2)) < 0
        · simp only [hg, hl, if_true, if_false]
          obtain ⟨r, c, hr, hc0, hc1⟩ := ih low (low + (high - low).tdiv 2 - 1) (by omega)
          rw [hr]
          refine ⟨r, c + 2, rfl, fun h => by omega, fun _ => ?_⟩
          by_cases hemp : low + (high - low).tdiv 2 - 1 < low
          · have := hc0 hemp
            omega
          · have hstep := log_half_step (low + (high - low).tdiv 2 - 1 + 1 - low).toNat
              (high + 1 - low).toNat (by omega) (by omega)
            have := hc1 (by omega)
            omega
        · simp only [hg, hl, if_false]
          exact ⟨_, 2, rfl, fun h => by omega, fun _ => by omega⟩
    · rw [if_neg hlh]
      exact ⟨none, 0, rfl, fun _ => rfl, fun h => absurd h hlh⟩

/-- C16, amended.  For every non-empty leaf page and every key (the entries need
not even be ascending), `LookupCounted` returns with fuel above the size, its
result is that of `Lookup`, and the number of comparator calls, range
pre-checks included, is at most `2 * ⌊log2(size)⌋ + 4`. -/
theorem Lookup_comparator_calls_bound (cmp : K → K → Int) (p : BPlusTreeLeafPage K V)
    (key : K) (fuel : Nat) (hn : 1 ≤ p.size_) (hfuel : p.size_.toNat < fuel) :
    ∃ r c, LookupCounted cmp p key fuel = some (r, c) ∧
      Lookup cmp p key fuel = some r ∧ c ≤ 2 * Nat.log 2 p.size_.toNat + 4 := by
  have hfst := LookupCounted_fst cmp p key fuel
  have hmain : ∃ r c, LookupCounted cmp p key fuel = some (r, c) ∧
      c ≤ 2 * Nat.log 2 p.size_.toNat + 4 := by
    unfold LookupCounted
    by_cases h1 : p.GetSize = 0
    · rw [if_pos h1]; exact ⟨none, 0, rfl, by omega⟩
    · by_cases h2 : cmp key (p.KeyAt 0) < 0
      · rw [if_neg h1, if_pos h2]; exact ⟨none, 1, rfl, by omega⟩
      · by_cases h3 : cmp key (p.KeyAt (p.GetSize - 1)) > 0
        · rw [if_neg h1, if_neg h2, if_pos h3]; exact ⟨none, 2, rfl, by omega⟩
        · rw [if_neg h1, if_neg h2, if_neg h3]
          obtain ⟨r, c, hr, _, hc⟩ := Lookup_loopCounted_bound cmp p key fuel 0
            (p.GetSize - 1) (by unfold GetSize; omega)
          rw [hr]
          refine ⟨r, c + 2, rfl, ?_⟩
          have := hc (by unfold GetSize; omega)
          have hsz : (p.GetSize - 1 + 1 - 0).toNat = p.size_.toNat := by
            unfold GetSize; omega
          rw [hsz] at this
          omega
  obtain ⟨r, c, hres, hc⟩ := hmain
  refine ⟨r, c, hres, ?_, hc⟩
  rw [← hfst, hres]
  rfl

end BPlusTreeLeafPage

/-- C16 as stated fails.  On the strictly ascending page `[(1,B),(3,C),(5,A)]`,
`Lookup(2)` returns "absent" after 5 comparator calls (two range pre-checks,
two calls at index 1, one call at index 0), which is more than
`⌈log2(3)⌉ + 1 = 3` and more than the 2 calls of the scenario. -/
theorem Lookup_calls_exceed_claimed_bound :
    BPlusTreeLeafPage.StrictlyAscending intCmp page135 ∧ (1 : Int) ≤ page135.size_ ∧
    BPlusTreeLeafPage.LookupCounted intCmp page135 2 4 = some (none, 5) ∧
    BPlusTreeLeafPage.Lookup intCmp page135 2 4 = some none ∧
    ¬ (5 ≤ Nat.clog 2 page135.size_.toNat + 1) ∧ ¬ (5 ≤ 2) := by
  refine ⟨by decide, by decide, by decide, by decide, ?_, by decide⟩
  have h3 : page135.size_.toNat = 3 := by decide
  rw [h3]
  have : Nat.clog 2 3 = 2 := by norm_num [Nat.clog]
  omega

/-- The hypotheses and the conclusion of the amended C16 on `[(1,B),(3,C),(5,A)]`
and key 2: 5 comparator calls, within the bound. -/
theorem Lookup_comparator_calls_bound_witness :
    (1 : Int) ≤ page135.size_ ∧ page135.size_.toNat < 4 ∧
    BPlusTreeLeafPage.LookupCounted intCmp page135 2 4 = some (none, 5) ∧
    ∃ r c, BPlusTreeLeafPage.LookupCounted intCmp page135 2 4 = some (r, c) ∧
      BPlusTreeLeafPage.Lookup intCmp page135 2 4 = some r ∧
      c ≤ 2 * Nat.log 2 page135.size_.toNat + 4 :=
  ⟨by decide, by decide, by decide,
    BPlusTreeLeafPage.Lookup_comparator_calls_bound intCmp page135 2 4 (by decide) (by decide)⟩

end bustub
